import Mathlib

/-!
# Verification of the `rust-kv` log-structured key/value store

This file is a shallow embedding of the storage engine in `src/kv.rs`
(`KvStore`), together with proofs about its public contract.

Modelling choices, stated once here:

* Keys and values are `String`s, as in the source.
* A segment file on disk is modelled as the list of records (`Command`s)
  it contains, in append order.  Byte offsets and record lengths are
  modelled faithfully through `encLen`, the exact byte length of the
  `serde_json` encoding of a record (`{"SET":["k","v"]}` / `{"RM":"k"}`,
  with the standard JSON string escaping rules of `serde_json`).
* The directory is an association list from segment number to file
  contents; `KvStore.dir` plays the role of `dir_path` together with the
  file system.  `KvStore.readerNums` is the key set of the
  `current_readers` map; a cached reader reads the current contents of
  its file (the source seeks before every read, which drops the
  `BufReader` buffer, and every write is flushed before the index is
  updated).
* `KvStore.writerPos` is the `position` field of `BufWriterWithPosition`.
* Filesystem operations are assumed to succeed (no I/O fault model); a
  `remove_file` of a non-existent path is modelled as `Io`, and the two
  `expect("Can not find key in files but it is in memory")` panics are
  modelled as the `Panic` outcome.
* In `compact`, the source `io::copy` copies the raw byte range of an
  index entry.  In the record-level model a byte range is decodable only
  when it is exactly one encoded record, which the index invariant
  guarantees at every call site; the model copies that record (and for
  an out-of-invariant misaligned range copies nothing).
-/

/-! ## Association lists (model of `HashMap` with its observable operations) -/

def alookup {α β : Type} [DecidableEq α] : List (α × β) → α → Option β
  | [], _ => none
  | (a, b) :: l, x => if x = a then some b else alookup l x

def aset {α β : Type} [DecidableEq α] : List (α × β) → α → β → List (α × β)
  | [], x, y => [(x, y)]
  | (a, b) :: l, x, y => if x = a then (x, y) :: l else (a, b) :: aset l x y

def aerase {α β : Type} [DecidableEq α] : List (α × β) → α → List (α × β)
  | [], _ => []
  | (a, b) :: l, x => if x = a then l else (a, b) :: aerase l x

def keysOf {α β : Type} (l : List (α × β)) : List α := l.map Prod.fst

def NodupKeys {α β : Type} (l : List (α × β)) : Prop := (keysOf l).Nodup

/-- Insert a number into the key set of a `HashMap Nat _` (order of the
model list is irrelevant; membership is what matters). -/
def insertNum (n : Nat) (l : List Nat) : List Nat :=
  if n ∈ l then l else l ++ [n]

/-! ## Records and their encoded byte length

`Command` is the `serde`-serialisable record type of `src/engine/command.rs`. -/

inductive Command : Type
  | SET : String → String → Command
  | RM : String → Command
deriving DecidableEq

/-- Byte length contributed by one character of a string inside a JSON
string literal, following `serde_json`'s escaping rules: `"` and `\` are
escaped as two bytes, the control characters BS, TAB, LF, FF, CR as two
bytes, other control characters as a six byte `\u00XX` sequence, and
everything else is emitted as its UTF-8 bytes. -/
def escLen (c : Char) : Nat :=
  if c = '"' ∨ c = '\\' then 2
  else if c.toNat < 0x20 then
    if c = Char.ofNat 8 ∨ c = Char.ofNat 9 ∨ c = Char.ofNat 10 ∨
        c = Char.ofNat 12 ∨ c = Char.ofNat 13 then 2 else 6
  else c.utf8Size

/-- Byte length of the JSON string literal encoding `s` (the two quotes
plus the escaped characters). -/
def jsonStrLen (s : String) : Nat := 2 + (s.data.map escLen).sum

/-- Exact byte length of `serde_json::to_vec(&command)`:
`{"SET":[`…`,`…`]}` is 11 framing bytes plus the two string literals;
`{"RM":`…`}` is 7 framing bytes plus one string literal. -/
def encLen : Command → Nat
  | .SET k v => 11 + jsonStrLen k + jsonStrLen v
  | .RM k => 7 + jsonStrLen k

theorem encLen_pos (c : Command) : 0 < encLen c := by
  cases c <;> simp [encLen]

/-! ## Segment files -/

/-- A segment file: the sequence of records it contains. -/
abbrev File : Type := List Command

/-- Size of a file in bytes. -/
def fileSize : File → Nat
  | [] => 0
  | c :: f => encLen c + fileSize f

/-- Decoding the byte range `[off, off + len)` of file `f` as exactly one
record: succeeds iff `off` is a record boundary and `len` is that
record's encoded length (this is what `reader.seek(off)`,
`take(len)` and `serde_json::from_reader` amount to on a well-formed
segment). -/
def recordAt : File → Nat → Nat → Option Command
  | [], _, _ => none
  | c :: f, off, len =>
    if off = 0 then (if len = encLen c then some c else none)
    else if off < encLen c then none
    else recordAt f (off - encLen c) len

/-! ## The logical contents of the log: replay semantics -/

/-- Effect of one record on the logical key/value map. -/
def applyCmd (m : List (String × String)) : Command → List (String × String)
  | .SET k v => aset m k v
  | .RM k => aerase m k

/-- Replay one file on top of a logical map. -/
def replayFile (m : List (String × String)) (f : File) : List (String × String) :=
  f.foldl applyCmd m

/-- The segment numbers of a directory, sorted ascending (the source does
`versions.sort()`). -/
def sortedVersions (d : List (Nat × File)) : List Nat :=
  List.insertionSort (· ≤ ·) (keysOf d)

/-- Replay the files of the given versions of a directory, in order. -/
def replayVersions (d : List (Nat × File)) (vs : List Nat)
    (m : List (String × String)) : List (String × String) :=
  vs.foldl (fun m v => replayFile m ((alookup d v).getD [])) m

/-- The logical key/value map determined by a directory: replay all
segments in ascending segment-number order. -/
def replayDir (d : List (Nat × File)) : List (String × String) :=
  replayVersions d (sortedVersions d) []

/-! ## Engine state -/

/-- `CommandPosition` of `src/kv.rs`. -/
structure CommandPosition : Type where
  offset : Nat
  length : Nat
  file_number : Nat
deriving DecidableEq

/-- The error type of `src/errors.rs`, plus `Panic`, which models a Rust
panic raised by one of the two `expect` calls (not a `KVStoreError`
variant of the source, but an observable outcome of the program). -/
inductive KVStoreError : Type
  | Io : KVStoreError
  | Serde : KVStoreError
  | KeyNotFound : KVStoreError
  | UnknownCommandType : KVStoreError
  | ChangeEngineError : KVStoreError
  | CommonStringError : String → KVStoreError
  | Panic : KVStoreError
deriving DecidableEq

/-- `KvStore` of `src/kv.rs`.  `dir` models the directory contents on
disk (reached through `dir_path` in the source), `readerNums` the key
set of `current_readers`, `writerPos` the cached writer position. -/
structure KvStore : Type where
  index : List (String × CommandPosition)
  readerNums : List Nat
  current_file_number : Nat
  useless_size : Nat
  dir : List (Nat × File)
  writerPos : Nat
deriving DecidableEq

def MAX_USELESS_SIZE : Nat := 1024

/-! ## Operations -/

/-- `create_new_file`: bump the file number, open (create) the new file
as the active writer, install its reader. -/
def KvStore.create_new_file (s : KvStore) : KvStore :=
  let n := s.current_file_number + 1
  let f := (alookup s.dir n).getD []
  { s with
    current_file_number := n
    dir := aset s.dir n f
    writerPos := fileSize f
    readerNums := insertNum n s.readerNums }

/-- The per-entry copy loop of `compact`: for each index entry, seek the
source reader, copy the raw record bytes into the active writer, and
update the entry in place to point at the new segment `M`.  `before` is
`before_offset`, `wpos` the writer position.  Returns the rewritten
index, the final writer position, and the records written to the new
segment.  The source iterates `index.values_mut()` in the `HashMap`'s
unspecified order; the model iterates in index-list order, and every
property proved about compaction is order-independent (the copied
records carry pairwise distinct keys). -/
def compactLoop (dir : List (Nat × File)) (readers : List Nat) (M : Nat) :
    List (String × CommandPosition) → Nat → Nat →
    Except KVStoreError (List (String × CommandPosition) × Nat × File)
  | [], _, wpos => .ok ([], wpos, [])
  | (k, pos) :: rest, before, wpos =>
    if pos.file_number ∈ readers then
      match recordAt ((alookup dir pos.file_number).getD []) pos.offset pos.length with
      | some r =>
        match compactLoop dir readers M rest (wpos + encLen r) (wpos + encLen r) with
        | .ok (idx, w, f) =>
          .ok ((k, ⟨before, wpos + encLen r - before, M⟩) :: idx, w, r :: f)
        | .error e => .error e
      | none =>
        match compactLoop dir readers M rest wpos wpos with
        | .ok (idx, w, f) => .ok ((k, ⟨before, wpos - before, M⟩) :: idx, w, f)
        | .error e => .error e
    else .error .Panic

/-- The deletion loop of `compact`: for each stale segment number, drop
its reader, then `remove_file` its file (an absent file is an `Io`
error). -/
def deleteSegments : List Nat → List Nat → List (Nat × File) →
    Except KVStoreError (List Nat × List (Nat × File))
  | [], rs, d => .ok (rs, d)
  | n :: ns, rs, d =>
    let rs2 := rs.filter (fun m => m != n)
    if n ∈ keysOf d then deleteSegments ns rs2 (aerase d n) else .error .Io

/-- `compact`: open a fresh segment, copy every live record into it,
flush, unlink all reader-tracked segments below it, then open yet
another fresh segment as the active writer.  (Note: the source never
touches `useless_size` here.) -/
def KvStore.compact (s : KvStore) : Except KVStoreError KvStore :=
  let s1 := s.create_new_file
  match compactLoop s1.dir s1.readerNums s1.current_file_number s1.index 0 s1.writerPos with
  | .error e => .error e
  | .ok (newIdx, wOut, copied) =>
    let d2 := aset s1.dir s1.current_file_number copied
    let dead := s1.readerNums.filter (fun n => decide (n < s1.current_file_number))
    match deleteSegments dead s1.readerNums d2 with
    | .error e => .error e
    | .ok (rs3, d3) =>
      let s2 : KvStore :=
        { s1 with index := newIdx, dir := d3, readerNums := rs3, writerPos := wOut }
      .ok s2.create_new_file

/-- The state after `set`'s append and index update, before the
compaction check: append the encoded `SET` record to the active segment
(`write_all` + `flush`), then insert the position into the index,
accruing the superseded entry's length into the waste counter. -/
def KvStore.setState (s : KvStore) (k v : String) : KvStore :=
  let offset := s.writerPos
  let f := (alookup s.dir s.current_file_number).getD []
  let s1 : KvStore :=
    { s with
      dir := aset s.dir s.current_file_number (f ++ [Command.SET k v])
      writerPos := s.writerPos + encLen (Command.SET k v) }
  let length := s1.writerPos - offset
  let old := ((alookup s1.index k).map CommandPosition.length).getD 0
  { s1 with
    index := aset s1.index k ⟨offset, length, s1.current_file_number⟩
    useless_size := s1.useless_size + old }

/-- `set`: append the encoded `SET` record to the active segment, update
the index (accruing the superseded entry's length into the waste
counter), compact if the waste counter exceeds the threshold. -/
def KvStore.set (s : KvStore) (k v : String) : KvStore × Except KVStoreError Unit :=
  let s2 := s.setState k v
  if MAX_USELESS_SIZE < s2.useless_size then
    match s2.compact with
    | .ok s3 => (s3, .ok ())
    | .error e => (s2, .error e)
  else (s2, .ok ())

/-- `get`: look up the index, seek the cached reader of the entry's
segment and decode exactly one record.  The state component of the
result is the store after the call (the source takes `&mut self` but
assigns no field). -/
def KvStore.get (s : KvStore) (k : String) :
    KvStore × Except KVStoreError (Option String) :=
  match alookup s.index k with
  | none => (s, .ok none)
  | some pos =>
    if pos.file_number ∈ s.readerNums then
      match recordAt ((alookup s.dir pos.file_number).getD []) pos.offset pos.length with
      | some (Command.SET _ v) => (s, .ok (some v))
      | some (Command.RM _) => (s, .error .UnknownCommandType)
      | none => (s, .error .Serde)
    else (s, .error .Panic)

/-- The state after `remove`'s index eviction and `RM` append, before the
compaction check, for a key present with entry `cp`: evict the index
entry (accruing its length into the waste counter), append the encoded
`RM` record, then accrue the `RM` record's length too. -/
def KvStore.removeState (s : KvStore) (k : String) (cp : CommandPosition) : KvStore :=
  let sA : KvStore :=
    { s with index := aerase s.index k, useless_size := s.useless_size + cp.length }
  let offset := sA.writerPos
  let f := (alookup sA.dir sA.current_file_number).getD []
  let sB : KvStore :=
    { sA with
      dir := aset sA.dir sA.current_file_number (f ++ [Command.RM k])
      writerPos := sA.writerPos + encLen (Command.RM k) }
  { sB with useless_size := sB.useless_size + (sB.writerPos - offset) }

/-- `remove`: if the key is absent fail with `KeyNotFound` touching
nothing; otherwise evict the index entry (accruing its length), append a
`RM` record (accruing its length too), compact if over threshold. -/
def KvStore.remove (s : KvStore) (k : String) : KvStore × Except KVStoreError Unit :=
  match alookup s.index k with
  | some cp =>
    let sC := s.removeState k cp
    if MAX_USELESS_SIZE < sC.useless_size then
      match sC.compact with
      | .ok sD => (sD, .ok ())
      | .error e => (sC, .error e)
    else (sC, .ok ())
  | none => (s, .error .KeyNotFound)

/-- The record-processing loop of `recover` for one segment file:
stream-decode the records, tracking byte offsets, inserting `SET`
positions and erasing on `RM`, while accruing superseded and `RM`
record lengths into the waste counter. -/
def recoverFile (ver : Nat) :
    List Command → Nat → List (String × CommandPosition) → Nat →
    List (String × CommandPosition) × Nat
  | [], _, idx, u => (idx, u)
  | c :: rest, off, idx, u =>
    match c with
    | .SET k _ =>
      recoverFile ver rest (off + encLen c)
        (aset idx k ⟨off, encLen c, ver⟩)
        (u + (((alookup idx k).map CommandPosition.length).getD 0))
    | .RM k =>
      recoverFile ver rest (off + encLen c) (aerase idx k)
        (u + (((alookup idx k).map CommandPosition.length).getD 0) + encLen c)

/-- The per-segment loop of `recover`, over the sorted version list. -/
def recoverVersions (d : List (Nat × File)) :
    List Nat → List (String × CommandPosition) → Nat →
    List (String × CommandPosition) × Nat
  | [], idx, u => (idx, u)
  | v :: vs, idx, u =>
    let r := recoverFile v ((alookup d v).getD []) 0 idx u
    recoverVersions d vs r.1 r.2

/-- The state `open` builds before its compaction check: recovery over
the sorted segment list, writer opened (creating the file) on the
highest segment number or 0, reader 0 installed when the file number
is 0. -/
def openState (d : List (Nat × File)) : KvStore :=
  let versions := sortedVersions d
  let r := recoverVersions d versions [] 0
  let n := versions.getLast?.getD 0
  let f := (alookup d n).getD []
  let readers := if n = 0 then insertNum 0 versions else versions
  ⟨r.1, readers, n, r.2, aset d n f, fileSize f⟩

/-- `open`: run recovery over the directory, open the writer on the
highest segment (or segment 0, creating it), install reader 0 if the
file number is 0, and compact if the recovered waste counter exceeds
the threshold. -/
def openStore (d : List (Nat × File)) : Except KVStoreError KvStore :=
  let s := openState d
  if MAX_USELESS_SIZE < s.useless_size then s.compact else .ok s

/-! ## Operation sequences -/

inductive Op : Type
  | set : String → String → Op
  | remove : String → Op
  | get : String → Op

/-- One engine call.  A `KeyNotFound` from `remove` is a recoverable,
caller-handled error after which the store remains usable; any other
error aborts the run. -/
def stepOp (s : KvStore) : Op → Option KvStore
  | .set k v =>
    match s.set k v with
    | (s1, .ok _) => some s1
    | (_, .error _) => none
  | .remove k =>
    match s.remove k with
    | (s1, .ok _) => some s1
    | (s1, .error .KeyNotFound) => some s1
    | (_, .error _) => none
  | .get k => some (s.get k).1

def runOps : KvStore → List Op → Option KvStore
  | s, [] => some s
  | s, op :: ops =>
    match stepOp s op with
    | some s1 => runOps s1 ops
    | none => none

/-- The logical contents of a store: the key/value map its directory
replays to. -/
def storeModel (s : KvStore) (k : String) : Option String :=
  alookup (replayDir s.dir) k

deriving instance DecidableEq for Except

/-! ## Association list lemmas -/

section AListLemmas

variable {α β : Type} [DecidableEq α]

theorem alookup_aset_self (l : List (α × β)) (a : α) (b : β) :
    alookup (aset l a b) a = some b := by
  induction l with
  | nil => simp [aset, alookup]
  | cons hd tl ih =>
    obtain ⟨x, y⟩ := hd
    by_cases hx : a = x
    · simp [aset, hx, alookup]
    · simp [aset, Ne.symm hx, alookup, hx, ih]

theorem alookup_aset_ne (l : List (α × β)) (a : α) (b : β) (x : α) (hx : x ≠ a) :
    alookup (aset l a b) x = alookup l x := by
  induction l with
  | nil => simp [aset, alookup, hx]
  | cons hd tl ih =>
    obtain ⟨c, d⟩ := hd
    by_cases hc : a = c
    · subst hc
      simp [aset, alookup, hx]
    · simp only [aset, if_neg (Ne.symm (Ne.symm hc))]
      by_cases hxc : x = c <;> simp [alookup, hxc, ih, hc]

theorem alookup_aerase_ne (l : List (α × β)) (a x : α) (hx : x ≠ a) :
    alookup (aerase l a) x = alookup l x := by
  induction l with
  | nil => simp [aerase]
  | cons hd tl ih =>
    obtain ⟨c, d⟩ := hd
    by_cases hc : a = c
    · subst hc
      simp [aerase, alookup, hx]
    · by_cases hxc : x = c <;> simp [aerase, hc, alookup, hxc, ih]

theorem alookup_eq_none_of_not_mem (l : List (α × β)) (a : α) (h : a ∉ keysOf l) :
    alookup l a = none := by
  induction l with
  | nil => rfl
  | cons hd tl ih =>
    obtain ⟨c, d⟩ := hd
    simp only [keysOf, List.map_cons, List.mem_cons] at h
    push_neg at h
    simp [alookup, h.1, ih (by simpa [keysOf] using h.2)]

theorem mem_keys_of_alookup_some (l : List (α × β)) (a : α) (b : β)
    (h : alookup l a = some b) : a ∈ keysOf l := by
  induction l with
  | nil => simp [alookup] at h
  | cons hd tl ih =>
    obtain ⟨c, d⟩ := hd
    by_cases hc : a = c
    · simp [keysOf, hc]
    · simp only [alookup, if_neg hc] at h
      simpa [keysOf] using Or.inr (by simpa [keysOf] using ih h)

theorem alookup_eq_none_iff (l : List (α × β)) (a : α) :
    alookup l a = none ↔ a ∉ keysOf l := by
  induction l with
  | nil => simp [alookup, keysOf]
  | cons hd tl ih =>
    obtain ⟨c, d⟩ := hd
    by_cases hc : a = c
    · simp [alookup, hc, keysOf]
    · have ih2 : alookup tl a = none ↔ ¬a ∈ List.map Prod.fst tl := by
        simpa [keysOf] using ih
      simp only [alookup, if_neg hc, keysOf, List.map_cons, List.mem_cons, not_or]
      constructor
      · intro h
        exact ⟨hc, ih2.mp h⟩
      · intro h
        exact ih2.mpr h.2

theorem alookup_isSome_iff_mem (l : List (α × β)) (a : α) :
    (alookup l a).isSome = true ↔ a ∈ keysOf l := by
  rcases h : alookup l a with _ | b
  · simpa using (alookup_eq_none_iff l a).mp h
  · simpa using mem_keys_of_alookup_some l a b h

theorem alookup_eq_some_of_mem (l : List (α × β)) (a : α) (h : a ∈ keysOf l) :
    ∃ b, alookup l a = some b := by
  rcases hb : alookup l a with _ | b
  · exact absurd h ((alookup_eq_none_iff l a).mp hb)
  · exact ⟨b, rfl⟩

theorem alookup_aerase_self (l : List (α × β)) (a : α) (h : NodupKeys l) :
    alookup (aerase l a) a = none := by
  induction l with
  | nil => rfl
  | cons hd tl ih =>
    obtain ⟨c, d⟩ := hd
    simp only [NodupKeys, keysOf, List.map_cons, List.nodup_cons] at h
    by_cases hc : a = c
    · subst hc
      simpa [aerase] using (alookup_eq_none_iff tl a).mpr (by simpa [keysOf] using h.1)
    · simp [aerase, Ne.symm hc, alookup, hc, ih (by simpa [NodupKeys, keysOf] using h.2)]

theorem keysOf_aset_of_mem (l : List (α × β)) (a : α) (b : β) (h : a ∈ keysOf l) :
    keysOf (aset l a b) = keysOf l := by
  induction l with
  | nil => simp [keysOf] at h
  | cons hd tl ih =>
    obtain ⟨c, d⟩ := hd
    by_cases hc : a = c
    · simp [aset, hc, keysOf]
    · simp only [keysOf, List.map_cons, List.mem_cons] at h
      rcases h with h | h
      · exact absurd h hc
      · have h2 := ih (by simpa [keysOf] using h)
        simp only [aset, if_neg hc, keysOf, List.map_cons, List.cons.injEq, true_and]
        simpa [keysOf] using h2

theorem aset_of_not_mem (l : List (α × β)) (a : α) (b : β) (h : a ∉ keysOf l) :
    aset l a b = l ++ [(a, b)] := by
  induction l with
  | nil => simp [aset]
  | cons hd tl ih =>
    obtain ⟨c, d⟩ := hd
    simp only [keysOf, List.map_cons, List.mem_cons] at h
    push_neg at h
    simp [aset, h.1, ih (by simpa [keysOf] using h.2)]

theorem aset_self_of_alookup (l : List (α × β)) (a : α) (b : β)
    (h : alookup l a = some b) : aset l a b = l := by
  induction l with
  | nil => simp [alookup] at h
  | cons hd tl ih =>
    obtain ⟨c, d⟩ := hd
    by_cases hc : a = c
    · subst hc
      simp only [alookup, if_true, eq_self_iff_true, Option.some.injEq] at h
      simp [aset, h]
    · simp only [alookup, if_neg hc] at h
      simp [aset, hc, ih h]

theorem keysOf_aerase_sublist (l : List (α × β)) (a : α) :
    (keysOf (aerase l a)).Sublist (keysOf l) := by
  induction l with
  | nil => simp [aerase, keysOf]
  | cons hd tl ih =>
    obtain ⟨c, d⟩ := hd
    by_cases hc : a = c
    · subst hc
      simp only [aerase, if_true, eq_self_iff_true, keysOf, List.map_cons]
      exact List.sublist_cons_self a (List.map Prod.fst tl)
    · simpa [aerase, hc, keysOf] using List.Sublist.cons₂ c ih

theorem nodupKeys_aerase (l : List (α × β)) (a : α) (h : NodupKeys l) :
    NodupKeys (aerase l a) :=
  List.Nodup.sublist (keysOf_aerase_sublist l a) h

theorem nodupKeys_aset (l : List (α × β)) (a : α) (b : β) (h : NodupKeys l) :
    NodupKeys (aset l a b) := by
  by_cases hm : a ∈ keysOf l
  · simpa [NodupKeys, keysOf_aset_of_mem l a b hm] using h
  · rw [NodupKeys, aset_of_not_mem l a b hm]
    simp only [keysOf, List.map_append, List.map_cons, List.map_nil]
    rw [List.nodup_append]
    refine ⟨by simpa [keysOf] using h, List.nodup_singleton a, ?_⟩
    intro x hx
    simp only [List.mem_singleton]
    intro he
    subst he
    exact hm (by simpa [keysOf] using hx)

theorem mem_keys_aerase_iff (l : List (α × β)) (a x : α) (h : NodupKeys l) :
    x ∈ keysOf (aerase l a) ↔ x ∈ keysOf l ∧ x ≠ a := by
  by_cases hx : x = a
  · subst hx
    constructor
    · intro hm
      obtain ⟨b, hb⟩ := alookup_eq_some_of_mem (aerase l x) x hm
      rw [alookup_aerase_self l x h] at hb
      cases hb
    · intro hm
      exact absurd rfl hm.2
  · rw [← alookup_isSome_iff_mem, ← alookup_isSome_iff_mem,
      alookup_aerase_ne l a x hx]
    simp [hx]

theorem alookup_append_left (l1 l2 : List (α × β)) (a : α) (b : β)
    (h : alookup l1 a = some b) : alookup (l1 ++ l2) a = some b := by
  induction l1 with
  | nil => simp [alookup] at h
  | cons hd tl ih =>
    obtain ⟨c, d⟩ := hd
    by_cases hc : a = c
    · simp only [alookup, if_pos hc] at h
      simp [alookup, hc, h]
    · simp only [alookup, if_neg hc] at h
      simpa [alookup, hc] using ih h

theorem alookup_append_right (l1 l2 : List (α × β)) (a : α)
    (h : a ∉ keysOf l1) : alookup (l1 ++ l2) a = alookup l2 a := by
  induction l1 with
  | nil => simp
  | cons hd tl ih =>
    obtain ⟨c, d⟩ := hd
    simp only [keysOf, List.map_cons, List.mem_cons] at h
    push_neg at h
    simp [alookup, h.1, ih (by simpa [keysOf] using h.2)]

theorem aerase_append_left (l1 l2 : List (α × β)) (a : α) (h : a ∈ keysOf l1) :
    aerase (l1 ++ l2) a = aerase l1 a ++ l2 := by
  induction l1 with
  | nil => simp [keysOf] at h
  | cons hd tl ih =>
    obtain ⟨c, d⟩ := hd
    by_cases hc : a = c
    · simp [aerase, hc]
    · simp only [keysOf, List.map_cons, List.mem_cons] at h
      rcases h with h | h
      · exact absurd h hc
      · simp [aerase, hc, ih (by simpa [keysOf] using h)]

theorem aset_append_left (l1 l2 : List (α × β)) (a : α) (b : β) (h : a ∈ keysOf l1) :
    aset (l1 ++ l2) a b = aset l1 a b ++ l2 := by
  induction l1 with
  | nil => simp [keysOf] at h
  | cons hd tl ih =>
    obtain ⟨c, d⟩ := hd
    by_cases hc : a = c
    · simp [aset, hc]
    · simp only [keysOf, List.map_cons, List.mem_cons] at h
      rcases h with h | h
      · exact absurd h hc
      · simp [aset, hc, ih (by simpa [keysOf] using h)]

theorem alookup_of_map_fst_eq (l1 : List (α × β)) {γ : Type} (l2 : List (α × γ))
    (a : α) (h : keysOf l1 = keysOf l2) :
    alookup l1 a = none ↔ alookup l2 a = none := by
  rw [alookup_eq_none_iff, alookup_eq_none_iff, h]

end AListLemmas

/-! ## File and `recordAt` lemmas -/

theorem fileSize_append (f g : File) : fileSize (f ++ g) = fileSize f + fileSize g := by
  induction f with
  | nil => simp [fileSize]
  | cons c f ih => simp [fileSize, ih]; omega

theorem recordAt_append_of_some (f g : File) (off len : Nat) (r : Command)
    (h : recordAt f off len = some r) : recordAt (f ++ g) off len = some r := by
  induction f generalizing off with
  | nil => simp [recordAt] at h
  | cons c f ih =>
    by_cases h0 : off = 0
    · subst h0
      by_cases hl : len = encLen c
      · simpa [recordAt, hl] using (by simpa [recordAt, hl] using h)
      · simp [recordAt, hl] at h
    · by_cases hlt : off < encLen c
      · simp [recordAt, h0, hlt] at h
      · simp only [recordAt, if_neg h0, if_neg hlt] at h
        simpa [recordAt, h0, hlt, List.cons_append] using ih (off - encLen c) h

theorem recordAt_boundary (p : File) (c : Command) (q : File) :
    recordAt (p ++ c :: q) (fileSize p) (encLen c) = some c := by
  induction p with
  | nil => simp [recordAt, fileSize]
  | cons d p ih =>
    have hd := encLen_pos d
    have h0 : encLen d + fileSize p ≠ 0 := by omega
    have hlt : ¬ encLen d + fileSize p < encLen d := by omega
    simp only [List.cons_append, recordAt, fileSize, if_neg h0, if_neg hlt]
    simpa [Nat.add_sub_cancel_left] using ih

/-! ## Replay lemmas -/

theorem replayFile_append (m : List (String × String)) (f g : File) :
    replayFile m (f ++ g) = replayFile (replayFile m f) g := by
  simp [replayFile, List.foldl_append]

theorem replayFile_cons (m : List (String × String)) (c : Command) (f : File) :
    replayFile m (c :: f) = replayFile (applyCmd m c) f := rfl

theorem nodupKeys_applyCmd (m : List (String × String)) (c : Command)
    (h : NodupKeys m) : NodupKeys (applyCmd m c) := by
  cases c with
  | SET k v => exact nodupKeys_aset m k v h
  | RM k => exact nodupKeys_aerase m k h

theorem nodupKeys_replayFile (m : List (String × String)) (f : File)
    (h : NodupKeys m) : NodupKeys (replayFile m f) := by
  induction f generalizing m with
  | nil => exact h
  | cons c f ih => exact ih (applyCmd m c) (nodupKeys_applyCmd m c h)

theorem nodupKeys_replayVersions (d : List (Nat × File)) (vs : List Nat)
    (m : List (String × String)) (h : NodupKeys m) :
    NodupKeys (replayVersions d vs m) := by
  induction vs generalizing m with
  | nil => exact h
  | cons v vs ih =>
    exact ih (replayFile m ((alookup d v).getD []))
      (nodupKeys_replayFile m _ h)

theorem nodupKeys_replayDir (d : List (Nat × File)) : NodupKeys (replayDir d) :=
  nodupKeys_replayVersions d (sortedVersions d) [] (by simp [NodupKeys, keysOf])

theorem replayVersions_congr (d d2 : List (Nat × File)) (vs : List Nat)
    (m : List (String × String))
    (h : ∀ v ∈ vs, alookup d2 v = alookup d v) :
    replayVersions d2 vs m = replayVersions d vs m := by
  induction vs generalizing m with
  | nil => rfl
  | cons v vs ih =>
    simp only [replayVersions, List.foldl_cons]
    rw [h v (List.mem_cons_self v vs)]
    exact ih (replayFile m ((alookup d v).getD []))
      (fun w hw => h w (List.mem_cons_of_mem v hw))

/-! ## Sorted version list lemmas -/

theorem sorted_max_concat (n : Nat) :
    ∀ vs : List Nat, List.Sorted (· ≤ ·) vs → vs.Nodup → n ∈ vs →
      (∀ m ∈ vs, m ≤ n) → ∃ ws, vs = ws ++ [n] ∧ n ∉ ws
  | [], _, _, hn, _ => by simp at hn
  | x :: rest, hs, hd, hn, hb => by
    cases rest with
    | nil =>
      simp only [List.mem_singleton] at hn
      exact ⟨[], by simp [hn], by simp⟩
    | cons y ys =>
      by_cases hx : x = n
      · subst hx
        exfalso
        have h1 : x ≤ y := (List.sorted_cons.mp hs).1 y (by simp)
        have h2 : y ≤ x := hb y (by simp)
        have : x = y := le_antisymm h1 h2
        subst this
        exact (List.nodup_cons.mp hd).1 (by simp)
      · have hn2 : n ∈ y :: ys := by
          rcases List.mem_cons.mp hn with h | h
          · exact absurd h.symm hx
          · exact h
        obtain ⟨ws, hws, hnw⟩ :=
          sorted_max_concat n (y :: ys) (List.sorted_cons.mp hs).2
            (List.nodup_cons.mp hd).2 hn2 (fun m hm => hb m (by simp [hm]))
        refine ⟨x :: ws, by simp [hws], ?_⟩
        simp only [List.mem_cons, not_or]
        exact ⟨fun he => hx he.symm, hnw⟩

theorem sorted_getLast_mem :
    ∀ vs : List Nat, vs ≠ [] → vs.getLast?.getD 0 ∈ vs
  | [], h => absurd rfl h
  | [x], _ => by simp [List.getLast?]
  | x :: y :: ys, _ => by
    rw [List.getLast?_cons_cons]
    exact List.mem_cons_of_mem x (sorted_getLast_mem (y :: ys) (by simp))

theorem sorted_le_getLast :
    ∀ vs : List Nat, List.Sorted (· ≤ ·) vs → ∀ m ∈ vs, m ≤ vs.getLast?.getD 0
  | [], _, m, hm => by simp at hm
  | [x], _, m, hm => by
    simp only [List.mem_singleton] at hm
    simp [hm, List.getLast?]
  | x :: y :: ys, hs, m, hm => by
    rw [List.getLast?_cons_cons]
    rcases List.mem_cons.mp hm with h | h
    · subst h
      have h1 : m ≤ y := (List.sorted_cons.mp hs).1 y (by simp)
      have h2 := sorted_le_getLast (y :: ys) (List.sorted_cons.mp hs).2 y (by simp)
      exact le_trans h1 h2
    · exact sorted_le_getLast (y :: ys) (List.sorted_cons.mp hs).2 m h

theorem sortedVersions_nodup (d : List (Nat × File)) (h : NodupKeys d) :
    (sortedVersions d).Nodup :=
  (List.perm_insertionSort (· ≤ ·) (keysOf d)).nodup_iff.mpr h

theorem mem_sortedVersions (d : List (Nat × File)) (n : Nat) :
    n ∈ sortedVersions d ↔ n ∈ keysOf d :=
  (List.perm_insertionSort (· ≤ ·) (keysOf d)).mem_iff

theorem sortedVersions_sorted (d : List (Nat × File)) :
    List.Sorted (· ≤ ·) (sortedVersions d) :=
  List.sorted_insertionSort (· ≤ ·) (keysOf d)

/-! ## The engine invariant -/

/-- The record a `CommandPosition` denotes on disk (reading the entry's
file through the reader cache). -/
def posValD (d : List (Nat × File)) (pos : CommandPosition) : Option Command :=
  recordAt ((alookup d pos.file_number).getD []) pos.offset pos.length

/-- Agreement of one key's index entry with the logical map: both absent,
or the entry's byte range holds exactly the `SET` record of the logical
value. -/
def entryOk (d : List (Nat × File)) (k : String) :
    Option CommandPosition → Option String → Prop
  | none, none => True
  | some pos, some v => posValD d pos = some (Command.SET k v)
  | _, _ => False

theorem posValD_file_mem (d : List (Nat × File)) (pos : CommandPosition)
    (c : Command) (h : posValD d pos = some c) : pos.file_number ∈ keysOf d := by
  rcases hl : alookup d pos.file_number with _ | f
  · rw [posValD, hl] at h
    simp [recordAt] at h
  · exact mem_keys_of_alookup_some d pos.file_number f hl

/-- The engine invariant, maintained by `open` and all operations. -/
structure StoreInv (s : KvStore) : Prop where
  dirNodup : NodupKeys s.dir
  idxNodup : NodupKeys s.index
  cfnMem : s.current_file_number ∈ keysOf s.dir
  cfnMax : ∀ n ∈ keysOf s.dir, n ≤ s.current_file_number
  readersIff : ∀ n, n ∈ s.readerNums ↔ n ∈ keysOf s.dir
  readersNodup : s.readerNums.Nodup
  wpos : s.writerPos = fileSize ((alookup s.dir s.current_file_number).getD [])
  idxMatches : ∀ k, entryOk s.dir k (alookup s.index k) (alookup (replayDir s.dir) k)

theorem entryOk_some_elim (d : List (Nat × File)) (k : String)
    (pos : CommandPosition) (vo : Option String)
    (h : entryOk d k (some pos) vo) :
    ∃ v, vo = some v ∧ posValD d pos = some (Command.SET k v) := by
  cases vo with
  | none => exact absurd h (by simp [entryOk])
  | some v => exact ⟨v, rfl, h⟩

theorem entryOk_none_elim (d : List (Nat × File)) (k : String) (vo : Option String)
    (h : entryOk d k none vo) : vo = none := by
  cases vo with
  | none => rfl
  | some v => exact absurd h (by simp [entryOk])

/-- Under the invariant, a key with a logical value has an index entry. -/
theorem mem_index_of_model (s : KvStore) (h : StoreInv s) (k : String) (v : String)
    (hm : storeModel s k = some v) : ∃ cp, alookup s.index k = some cp := by
  have hk := h.idxMatches k
  rcases hik : alookup s.index k with _ | cp
  · rw [hik] at hk
    rw [storeModel, entryOk_none_elim _ _ _ hk] at hm
    cases hm
  · exact ⟨cp, rfl⟩

/-! ## Replaying an append to the maximal segment -/

theorem replayVersions_concat (d : List (Nat × File)) (ws : List Nat) (n : Nat)
    (m : List (String × String)) :
    replayVersions d (ws ++ [n]) m
      = replayFile (replayVersions d ws m) ((alookup d n).getD []) := by
  simp [replayVersions, List.foldl_append]

theorem replayDir_aset_max (d : List (Nat × File)) (n : Nat) (f : File)
    (c : Command) (hd : NodupKeys d) (hf : alookup d n = some f)
    (hmax : ∀ m ∈ keysOf d, m ≤ n) :
    replayDir (aset d n (f ++ [c])) = applyCmd (replayDir d) c := by
  have hnk : n ∈ keysOf d := mem_keys_of_alookup_some d n f hf
  have hkeys : keysOf (aset d n (f ++ [c])) = keysOf d :=
    keysOf_aset_of_mem d n (f ++ [c]) hnk
  have hvs : sortedVersions (aset d n (f ++ [c])) = sortedVersions d := by
    simp [sortedVersions, hkeys]
  obtain ⟨ws, hws, hnw⟩ :=
    sorted_max_concat n (sortedVersions d) (sortedVersions_sorted d)
      (sortedVersions_nodup d hd) ((mem_sortedVersions d n).mpr hnk)
      (fun m hm => hmax m ((mem_sortedVersions d m).mp hm))
  rw [replayDir, hvs, hws, replayVersions_concat, replayDir, hws,
    replayVersions_concat]
  rw [replayVersions_congr d (aset d n (f ++ [c])) ws []
    (fun w hw => alookup_aset_ne d n (f ++ [c]) w (fun he => hnw (he ▸ hw)))]
  rw [alookup_aset_self, hf]
  simp [replayFile_append, replayFile, applyCmd]

/-! ## Recovery correctness -/

theorem recoverFile_spec (d : List (Nat × File)) (v : Nat) :
    ∀ (rest p : File) (idx : List (String × CommandPosition)) (u : Nat)
      (m : List (String × String)),
    (alookup d v).getD [] = p ++ rest →
    NodupKeys idx → NodupKeys m →
    (∀ k, entryOk d k (alookup idx k) (alookup m k)) →
    NodupKeys (recoverFile v rest (fileSize p) idx u).1 ∧
    (∀ k, entryOk d k (alookup (recoverFile v rest (fileSize p) idx u).1 k)
      (alookup (replayFile m rest) k))
  | [], p, idx, u, m, hf, hidx, hm, hok => by
    exact ⟨hidx, by simpa [recoverFile, replayFile] using hok⟩
  | c :: rest, p, idx, u, m, hf, hidx, hm, hok => by
    have hsz : fileSize p + encLen c = fileSize (p ++ [c]) := by
      rw [fileSize_append]
      simp [fileSize]
    have hf2 : (alookup d v).getD [] = (p ++ [c]) ++ rest := by
      rw [hf, List.append_assoc]
      rfl
    cases c with
    | SET k0 val =>
      have hrec := recoverFile_spec d v rest (p ++ [Command.SET k0 val])
        (aset idx k0 ⟨fileSize p, encLen (Command.SET k0 val), v⟩)
        (u + (((alookup idx k0).map CommandPosition.length).getD 0))
        (aset m k0 val) hf2
        (nodupKeys_aset idx k0 _ hidx) (nodupKeys_aset m k0 val hm)
        (fun k => by
          by_cases hk : k = k0
          · subst hk
            rw [alookup_aset_self, alookup_aset_self]
            show posValD d _ = some (Command.SET k val)
            rw [posValD]
            simp only
            rw [hf]
            exact recordAt_boundary p (Command.SET k val) rest
          · rw [alookup_aset_ne idx k0 _ k hk, alookup_aset_ne m k0 val k hk]
            exact hok k)
      simp only [recoverFile, replayFile_cons]
      rw [show applyCmd m (Command.SET k0 val) = aset m k0 val from rfl]
      rw [← hsz] at hrec
      exact hrec
    | RM k0 =>
      have hrec := recoverFile_spec d v rest (p ++ [Command.RM k0])
        (aerase idx k0)
        (u + (((alookup idx k0).map CommandPosition.length).getD 0)
          + encLen (Command.RM k0))
        (aerase m k0) hf2
        (nodupKeys_aerase idx k0 hidx) (nodupKeys_aerase m k0 hm)
        (fun k => by
          by_cases hk : k = k0
          · subst hk
            rw [alookup_aerase_self idx k hidx, alookup_aerase_self m k hm]
            exact trivial
          · rw [alookup_aerase_ne idx k0 k hk, alookup_aerase_ne m k0 k hk]
            exact hok k)
      simp only [recoverFile, replayFile_cons]
      rw [show applyCmd m (Command.RM k0) = aerase m k0 from rfl]
      rw [← hsz] at hrec
      exact hrec

theorem recoverVersions_spec (d : List (Nat × File)) :
    ∀ (vs : List Nat) (idx : List (String × CommandPosition)) (u : Nat)
      (m : List (String × String)),
    NodupKeys idx → NodupKeys m →
    (∀ k, entryOk d k (alookup idx k) (alookup m k)) →
    NodupKeys (recoverVersions d vs idx u).1 ∧
    (∀ k, entryOk d k (alookup (recoverVersions d vs idx u).1 k)
      (alookup (replayVersions d vs m) k))
  | [], idx, u, m, hidx, hm, hok => ⟨hidx, by simpa [recoverVersions, replayVersions] using hok⟩
  | v :: vs, idx, u, m, hidx, hm, hok => by
    have hfile := recoverFile_spec d v ((alookup d v).getD []) [] idx u m rfl hidx hm hok
    have hrec := recoverVersions_spec d vs
      (recoverFile v ((alookup d v).getD []) 0 idx u).1
      (recoverFile v ((alookup d v).getD []) 0 idx u).2
      (replayFile m ((alookup d v).getD []))
      (by simpa [fileSize] using hfile.1)
      (nodupKeys_replayFile m _ hm)
      (by simpa [fileSize] using hfile.2)
    simp only [recoverVersions, replayVersions, List.foldl_cons]
    exact hrec

/-! ## Compaction correctness -/

theorem compactLoop_spec (dir : List (Nat × File)) (readers : List Nat) (M : Nat)
    (m : List (String × String)) :
    ∀ (entries : List (String × CommandPosition)) (pre : File),
    NodupKeys entries →
    (∀ k pos, alookup entries k = some pos → pos.file_number ∈ readers ∧
      ∃ v, alookup m k = some v ∧ posValD dir pos = some (Command.SET k v)) →
    ∃ (newIdx : List (String × CommandPosition)) (copied : File),
      compactLoop dir readers M entries (fileSize pre) (fileSize pre) =
        .ok (newIdx, fileSize pre + fileSize copied, copied) ∧
      keysOf newIdx = keysOf entries ∧
      (∀ k npos, alookup newIdx k = some npos → npos.file_number = M ∧
        ∃ v, alookup m k = some v ∧
          recordAt (pre ++ copied) npos.offset npos.length
            = some (Command.SET k v)) ∧
      (∀ mm k, alookup (replayFile mm copied) k =
        if (alookup entries k).isSome then alookup m k else alookup mm k)
  | [], pre, hnd, hent => by
    refine ⟨[], [], ?_, rfl, ?_, ?_⟩
    · simp [compactLoop, fileSize]
    · intro k npos h
      simp [alookup] at h
    · intro mm k
      simp [replayFile, alookup]
  | (k0, pos0) :: rest, pre, hnd, hent => by
    have hk0 := hent k0 pos0 (by simp [alookup])
    obtain ⟨hr, v0, hv0, hpv⟩ := hk0
    have hk0nm : k0 ∉ keysOf rest := by
      have := hnd
      simp only [NodupKeys, keysOf, List.map_cons, List.nodup_cons] at this
      simpa [keysOf] using this.1
    have hndr : NodupKeys rest := by
      have := hnd
      simp only [NodupKeys, keysOf, List.map_cons, List.nodup_cons] at this
      simpa [NodupKeys, keysOf] using this.2
    have hentr : ∀ k pos, alookup rest k = some pos → pos.file_number ∈ readers ∧
        ∃ v, alookup m k = some v ∧ posValD dir pos = some (Command.SET k v) := by
      intro k pos h
      by_cases hk : k = k0
      · subst hk
        exact absurd (mem_keys_of_alookup_some rest k pos h) hk0nm
      · exact hent k pos (by simpa [alookup, hk] using h)
    have hsz : fileSize pre + encLen (Command.SET k0 v0)
        = fileSize (pre ++ [Command.SET k0 v0]) := by
      rw [fileSize_append]
      simp [fileSize]
    obtain ⟨newIdx, copied, hloop, hkeys, hposs, hrep⟩ :=
      compactLoop_spec dir readers M m rest (pre ++ [Command.SET k0 v0]) hndr hentr
    refine ⟨(k0, ⟨fileSize pre, fileSize pre + encLen (Command.SET k0 v0) - fileSize pre,
        M⟩) :: newIdx, Command.SET k0 v0 :: copied, ?_, ?_, ?_, ?_⟩
    · show compactLoop dir readers M ((k0, pos0) :: rest) (fileSize pre) (fileSize pre) = _
      rw [compactLoop, if_pos hr]
      rw [show recordAt ((alookup dir pos0.file_number).getD []) pos0.offset pos0.length
        = some (Command.SET k0 v0) from hpv]
      dsimp only
      rw [hsz, hloop]
      have hw : fileSize (pre ++ [Command.SET k0 v0]) + fileSize copied
          = fileSize pre + fileSize (Command.SET k0 v0 :: copied) := by
        rw [fileSize_append]
        simp only [fileSize]
        omega
      rw [hw]
    · simpa [keysOf] using hkeys
    · intro k npos h
      by_cases hk : k = k0
      · subst hk
        simp only [alookup, if_true, eq_self_iff_true, Option.some.injEq] at h
        subst h
        refine ⟨rfl, v0, hv0, ?_⟩
        simp only [Nat.add_sub_cancel_left]
        exact recordAt_boundary pre (Command.SET k v0) copied
      · simp only [alookup, if_neg hk] at h
        obtain ⟨hM, v, hv, hrec⟩ := hposs k npos h
        refine ⟨hM, v, hv, ?_⟩
        rw [← hrec, List.append_assoc]
        rfl
    · intro mm k
      rw [replayFile_cons]
      rw [show applyCmd mm (Command.SET k0 v0) = aset mm k0 v0 from rfl]
      rw [hrep (aset mm k0 v0) k]
      by_cases hk : k = k0
      · subst hk
        have hrnone : alookup rest k = none := (alookup_eq_none_iff rest k).mpr hk0nm
        simp [alookup, hrnone, alookup_aset_self, hv0]
      · simp [alookup, hk, alookup_aset_ne mm k0 v0 k hk]

theorem aset_append_not_mem {α β : Type} [DecidableEq α]
    (l : List (α × β)) (a : α) (b c : β) (h : a ∉ keysOf l) :
    aset (l ++ [(a, b)]) a c = l ++ [(a, c)] := by
  induction l with
  | nil => simp [aset]
  | cons hd tl ih =>
    obtain ⟨x, y⟩ := hd
    simp only [keysOf, List.map_cons, List.mem_cons] at h
    push_neg at h
    simp only [List.cons_append, aset, if_neg h.1, List.append_eq]
    rw [ih (by simpa [keysOf] using h.2)]

theorem deleteSegments_ok (M : Nat) (c : File) :
    ∀ (ns : List Nat) (d1 : List (Nat × File)) (rs : List Nat),
    NodupKeys d1 → ns.Nodup → (∀ n, n ∈ ns ↔ n ∈ keysOf d1) →
    ∃ rsOut, deleteSegments ns rs (d1 ++ [(M, c)]) = .ok (rsOut, [(M, c)]) ∧
      (∀ x, x ∈ rsOut ↔ x ∈ rs ∧ x ∉ ns) ∧ (rs.Nodup → rsOut.Nodup)
  | [], d1, rs, hd1, hns, heq => by
    have hk : keysOf d1 = [] := by
      rcases hk2 : keysOf d1 with _ | ⟨a, l⟩
      · rfl
      · have ha : a ∈ keysOf d1 := by
          rw [hk2]
          exact List.mem_cons_self a l
        simpa using (heq a).mpr ha
    have hd1nil : d1 = [] := by
      rcases d1 with _ | ⟨⟨a, b⟩, l⟩
      · rfl
      · simp [keysOf] at hk
    subst hd1nil
    exact ⟨rs, by simp [deleteSegments], fun x => by simp, fun h => h⟩
  | n :: ns, d1, rs, hd1, hns, heq => by
    have hnk : n ∈ keysOf d1 := (heq n).mp (List.mem_cons_self n ns)
    have hnsd : n ∉ ns := (List.nodup_cons.mp hns).1
    have hns2 : ns.Nodup := (List.nodup_cons.mp hns).2
    have heq2 : ∀ x, x ∈ ns ↔ x ∈ keysOf (aerase d1 n) := by
      intro x
      rw [mem_keys_aerase_iff d1 n x hd1]
      constructor
      · intro hx
        refine ⟨(heq x).mp (List.mem_cons_of_mem n hx), ?_⟩
        intro he
        subst he
        exact hnsd hx
      · intro hx
        rcases List.mem_cons.mp ((heq x).mpr hx.1) with h | h
        · exact absurd h hx.2
        · exact h
    obtain ⟨rsOut, hrun, hmem, hnd⟩ :=
      deleteSegments_ok M c ns (aerase d1 n) (rs.filter (fun m => m != n))
        (nodupKeys_aerase d1 n hd1) hns2 heq2
    refine ⟨rsOut, ?_, ?_, ?_⟩
    · rw [deleteSegments]
      rw [if_pos (by
        simp only [keysOf, List.map_append, List.map_cons, List.map_nil,
          List.mem_append]
        exact Or.inl (by simpa [keysOf] using hnk))]
      rw [aerase_append_left d1 [(M, c)] n hnk]
      exact hrun
    · intro x
      rw [hmem x, List.mem_filter]
      simp only [bne_iff_ne, ne_eq, List.mem_cons, not_or]
      constructor
      · rintro ⟨⟨h1, h2⟩, h3⟩
        exact ⟨h1, h2, h3⟩
      · rintro ⟨h1, h2, h3⟩
        exact ⟨⟨h1, h2⟩, h3⟩
    · intro h
      exact hnd (List.Nodup.filter _ h)

theorem create_new_file_index (s : KvStore) :
    (s.create_new_file).index = s.index := rfl

theorem create_new_file_useless (s : KvStore) :
    (s.create_new_file).useless_size = s.useless_size := rfl

theorem create_new_file_cfn (s : KvStore) :
    (s.create_new_file).current_file_number = s.current_file_number + 1 := rfl

theorem create_new_file_dir (s : KvStore) :
    (s.create_new_file).dir
      = aset s.dir (s.current_file_number + 1)
          ((alookup s.dir (s.current_file_number + 1)).getD []) := rfl

theorem create_new_file_readers (s : KvStore) :
    (s.create_new_file).readerNums
      = insertNum (s.current_file_number + 1) s.readerNums := rfl

theorem create_new_file_writerPos (s : KvStore) :
    (s.create_new_file).writerPos
      = fileSize ((alookup s.dir (s.current_file_number + 1)).getD []) := rfl

theorem create_new_file_wpos_inv (s : KvStore) :
    (s.create_new_file).writerPos
      = fileSize ((alookup (s.create_new_file).dir
          (s.create_new_file).current_file_number).getD []) := by
  rw [create_new_file_writerPos, create_new_file_dir, create_new_file_cfn,
    alookup_aset_self]
  rfl

theorem compact_ok (s : KvStore) (h : StoreInv s) :
    ∃ s2, s.compact = .ok s2 ∧ StoreInv s2 ∧
      (∀ k, storeModel s2 k = storeModel s k) ∧
      s2.useless_size = s.useless_size ∧
      s2.current_file_number = s.current_file_number + 2 ∧
      keysOf s2.dir = [s.current_file_number + 1, s.current_file_number + 2] ∧
      (∀ n, n ∈ s2.readerNums ↔
        (n = s.current_file_number + 1 ∨ n = s.current_file_number + 2)) := by
  have hMnot : s.current_file_number + 1 ∉ keysOf s.dir := by
    intro hm
    have := h.cfnMax _ hm
    omega
  have hMr : s.current_file_number + 1 ∉ s.readerNums :=
    fun hm => hMnot ((h.readersIff _).mp hm)
  have halook : alookup s.dir (s.current_file_number + 1) = none :=
    (alookup_eq_none_iff _ _).mpr hMnot
  have hdir1 : (s.create_new_file).dir
      = s.dir ++ [(s.current_file_number + 1, [])] := by
    rw [create_new_file_dir, halook]
    exact aset_of_not_mem s.dir _ [] hMnot
  have hrs1 : (s.create_new_file).readerNums
      = s.readerNums ++ [s.current_file_number + 1] := by
    rw [create_new_file_readers, insertNum, if_neg hMr]
  have hw1 : (s.create_new_file).writerPos = 0 := by
    rw [create_new_file_writerPos, halook]
    rfl
  have hent : ∀ k pos, alookup s.index k = some pos →
      pos.file_number ∈ s.readerNums ++ [s.current_file_number + 1] ∧
      ∃ v, alookup (replayDir s.dir) k = some v ∧
        posValD (s.dir ++ [(s.current_file_number + 1, [])]) pos
          = some (Command.SET k v) := by
    intro k pos hik
    have hm := h.idxMatches k
    rw [hik] at hm
    obtain ⟨v, hv, hpv⟩ := entryOk_some_elim _ _ _ _ hm
    have hfn : pos.file_number ∈ keysOf s.dir := posValD_file_mem _ _ _ hpv
    obtain ⟨f, hfl⟩ := alookup_eq_some_of_mem s.dir pos.file_number hfn
    refine ⟨List.mem_append_left _ ((h.readersIff _).mpr hfn), v, hv, ?_⟩
    rw [posValD] at hpv ⊢
    rw [alookup_append_left s.dir _ pos.file_number f hfl]
    rw [hfl] at hpv
    exact hpv
  obtain ⟨newIdx, copied, hloop, hkeys, hposs, hrep⟩ :=
    compactLoop_spec (s.dir ++ [(s.current_file_number + 1, [])])
      (s.readerNums ++ [s.current_file_number + 1]) (s.current_file_number + 1)
      (replayDir s.dir) s.index [] h.idxNodup hent
  simp only [fileSize, Nat.zero_add, List.nil_append] at hloop hposs
  have hdead : ((s.readerNums ++ [s.current_file_number + 1]).filter
      (fun n => decide (n < s.current_file_number + 1))) = s.readerNums := by
    rw [List.filter_append]
    have h1 : s.readerNums.filter (fun n => decide (n < s.current_file_number + 1))
        = s.readerNums :=
      List.filter_eq_self.mpr (fun a ha => by
        have := h.cfnMax a ((h.readersIff a).mp ha)
        simpa using by omega)
    have h2 : (([s.current_file_number + 1] : List Nat).filter
        (fun n => decide (n < s.current_file_number + 1))) = [] := by
      simp
    rw [h1, h2, List.append_nil]
  obtain ⟨rsOut, hdel, hmemOut, hndOut⟩ :=
    deleteSegments_ok (s.current_file_number + 1) copied s.readerNums s.dir
      (s.readerNums ++ [s.current_file_number + 1]) h.dirNodup h.readersNodup
      h.readersIff
  have hrsOut : ∀ x, x ∈ rsOut ↔ x = s.current_file_number + 1 := by
    intro x
    rw [hmemOut x]
    constructor
    · rintro ⟨hx1, hx2⟩
      rcases List.mem_append.mp hx1 with h1 | h1
      · exact absurd h1 hx2
      · simpa using h1
    · rintro rfl
      exact ⟨List.mem_append_right _ (by simp), hMr⟩
  have hrsNodup1 : (s.readerNums ++ [s.current_file_number + 1]).Nodup := by
    rw [List.nodup_append]
    refine ⟨h.readersNodup, List.nodup_singleton _, ?_⟩
    intro x hx
    simp only [List.mem_singleton]
    intro he
    subst he
    exact hMr hx
  have hrsOutNodup : rsOut.Nodup := hndOut hrsNodup1
  have hne2 : ¬ (s.current_file_number + 1 + 1 = s.current_file_number + 1) := by
    omega
  have hdirF : ((⟨newIdx, rsOut, s.current_file_number + 1, s.useless_size,
      [(s.current_file_number + 1, copied)], fileSize copied⟩ : KvStore).create_new_file).dir
      = [(s.current_file_number + 1, copied), (s.current_file_number + 2, [])] := by
    rw [create_new_file_dir]
    dsimp only
    simp only [alookup, if_neg hne2, aset]
    rfl
  have hrsF : ((⟨newIdx, rsOut, s.current_file_number + 1, s.useless_size,
      [(s.current_file_number + 1, copied)], fileSize copied⟩ : KvStore).create_new_file).readerNums
      = rsOut ++ [s.current_file_number + 2] := by
    rw [create_new_file_readers]
    dsimp only
    rw [insertNum, if_neg (fun hm => by
      have := (hrsOut _).mp hm
      omega)]
  have hsorted2 : List.Sorted (· ≤ ·)
      [s.current_file_number + 1, s.current_file_number + 2] := by
    rw [List.sorted_cons]
    refine ⟨?_, List.sorted_singleton _⟩
    intro b hb
    simp only [List.mem_singleton] at hb
    omega
  have hreplayF : replayDir
      [(s.current_file_number + 1, copied), (s.current_file_number + 2, [])]
      = replayFile [] copied := by
    rw [replayDir, sortedVersions]
    rw [show keysOf [(s.current_file_number + 1, copied),
      (s.current_file_number + 2, [])]
      = [s.current_file_number + 1, s.current_file_number + 2] from rfl]
    rw [List.Sorted.insertionSort_eq hsorted2]
    simp only [replayVersions, List.foldl_cons, List.foldl_nil]
    rw [show alookup [(s.current_file_number + 1, copied),
        (s.current_file_number + 2, [])] (s.current_file_number + 1)
        = some copied by simp [alookup]]
    rw [show alookup [(s.current_file_number + 1, copied),
        (s.current_file_number + 2, [])] (s.current_file_number + 2)
        = some [] by
      simp only [alookup,
        if_neg (by omega : ¬ (s.current_file_number + 2 = s.current_file_number + 1))]
      simp [alookup]]
    rfl
  refine ⟨(⟨newIdx, rsOut, s.current_file_number + 1, s.useless_size,
      [(s.current_file_number + 1, copied)], fileSize copied⟩ : KvStore).create_new_file,
    ?_, ?_, ?_, ?_, ?_, ?_, ?_⟩
  · unfold KvStore.compact
    dsimp only
    rw [hdir1, hrs1, hw1, create_new_file_cfn, create_new_file_index,
      create_new_file_useless, hloop]
    dsimp only
    rw [aset_append_not_mem s.dir (s.current_file_number + 1) [] copied hMnot,
      hdead, hdel]
  · constructor
    · rw [NodupKeys, hdirF]
      simp [keysOf]
    · show NodupKeys newIdx
      rw [NodupKeys, hkeys]
      exact h.idxNodup
    · rw [hdirF]
      show s.current_file_number + 2 ∈ keysOf _
      simp [keysOf]
    · rw [hdirF]
      intro n hn
      simp only [keysOf, List.map_cons, List.map_nil, List.mem_cons,
        List.mem_singleton, List.mem_nil_iff, or_false] at hn
      show n ≤ s.current_file_number + 2
      rcases hn with hn | hn <;> omega
    · intro n
      rw [hrsF, hdirF]
      simp only [List.mem_append, List.mem_singleton, keysOf, List.map_cons,
        List.map_nil, List.mem_cons, List.mem_nil_iff, or_false]
      rw [hrsOut n]
    · rw [hrsF]
      rw [List.nodup_append]
      refine ⟨hrsOutNodup, List.nodup_singleton _, ?_⟩
      intro x hx
      simp only [List.mem_singleton]
      intro he
      subst he
      have := (hrsOut _).mp hx
      omega
    · exact create_new_file_wpos_inv _
    · intro k
      rw [create_new_file_index, hdirF, hreplayF]
      dsimp only
      rw [hrep [] k]
      rcases hik : alookup newIdx k with _ | npos
      · have hsik : alookup s.index k = none :=
          (alookup_of_map_fst_eq newIdx s.index k hkeys).mp hik
        rw [hsik]
        simp [entryOk, alookup]
      · obtain ⟨hM, v, hv, hrec⟩ := hposs k npos hik
        have hsik : ∃ pos0, alookup s.index k = some pos0 := by
          rcases hs : alookup s.index k with _ | pos0
          · rw [(alookup_of_map_fst_eq newIdx s.index k hkeys).mpr hs] at hik
            cases hik
          · exact ⟨pos0, rfl⟩
        obtain ⟨pos0, hpos0⟩ := hsik
        rw [hpos0]
        simp only [Option.isSome_some, if_true]
        rw [hv]
        show posValD _ npos = some (Command.SET k v)
        rw [posValD, hM]
        rw [show alookup [(s.current_file_number + 1, copied),
          (s.current_file_number + 2, [])] (s.current_file_number + 1)
          = some copied by simp [alookup]]
        exact hrec
  · intro k
    rw [storeModel, hdirF, hreplayF]
    rw [hrep [] k]
    rcases hik : alookup s.index k with _ | pos
    · simp only [Option.isSome_none, Bool.false_eq_true, if_false]
      have hm := h.idxMatches k
      rw [hik] at hm
      rw [storeModel, entryOk_none_elim _ _ _ hm]
      rfl
    · simp only [Option.isSome_some, if_true]
      rfl
  · rfl
  · rfl
  · rw [hdirF]
    rfl
  · intro n
    rw [hrsF]
    simp only [List.mem_append, List.mem_singleton]
    rw [hrsOut n]

/-! ## Field equations for the pre-compaction states -/

theorem setState_index (s : KvStore) (k v : String) :
    (s.setState k v).index = aset s.index k
      ⟨s.writerPos, encLen (Command.SET k v), s.current_file_number⟩ := by
  show aset s.index k
      ⟨s.writerPos, s.writerPos + encLen (Command.SET k v) - s.writerPos,
        s.current_file_number⟩ = _
  rw [Nat.add_sub_cancel_left]

theorem setState_dir (s : KvStore) (k v : String) :
    (s.setState k v).dir = aset s.dir s.current_file_number
      (((alookup s.dir s.current_file_number).getD []) ++ [Command.SET k v]) := rfl

theorem setState_readers (s : KvStore) (k v : String) :
    (s.setState k v).readerNums = s.readerNums := rfl

theorem setState_cfn (s : KvStore) (k v : String) :
    (s.setState k v).current_file_number = s.current_file_number := rfl

theorem setState_useless (s : KvStore) (k v : String) :
    (s.setState k v).useless_size
      = s.useless_size + ((alookup s.index k).map CommandPosition.length).getD 0 := rfl

theorem setState_writerPos (s : KvStore) (k v : String) :
    (s.setState k v).writerPos = s.writerPos + encLen (Command.SET k v) := rfl

theorem removeState_index (s : KvStore) (k : String) (cp : CommandPosition) :
    (s.removeState k cp).index = aerase s.index k := rfl

theorem removeState_dir (s : KvStore) (k : String) (cp : CommandPosition) :
    (s.removeState k cp).dir = aset s.dir s.current_file_number
      (((alookup s.dir s.current_file_number).getD []) ++ [Command.RM k]) := rfl

theorem removeState_readers (s : KvStore) (k : String) (cp : CommandPosition) :
    (s.removeState k cp).readerNums = s.readerNums := rfl

theorem removeState_cfn (s : KvStore) (k : String) (cp : CommandPosition) :
    (s.removeState k cp).current_file_number = s.current_file_number := rfl

theorem removeState_writerPos (s : KvStore) (k : String) (cp : CommandPosition) :
    (s.removeState k cp).writerPos = s.writerPos + encLen (Command.RM k) := rfl

theorem removeState_useless (s : KvStore) (k : String) (cp : CommandPosition) :
    (s.removeState k cp).useless_size
      = s.useless_size + cp.length + encLen (Command.RM k) := by
  show s.useless_size + cp.length + (s.writerPos + encLen (Command.RM k) - s.writerPos) = _
  rw [Nat.add_sub_cancel_left]

theorem remove_eq_some (s : KvStore) (k : String) (cp : CommandPosition)
    (h : alookup s.index k = some cp) :
    s.remove k =
      (if MAX_USELESS_SIZE < (s.removeState k cp).useless_size then
        match (s.removeState k cp).compact with
        | .ok sD => (sD, .ok ())
        | .error e => (s.removeState k cp, .error e)
      else (s.removeState k cp, .ok ())) := by
  unfold KvStore.remove
  rw [h]

theorem remove_eq_none (s : KvStore) (k : String)
    (h : alookup s.index k = none) :
    s.remove k = (s, .error .KeyNotFound) := by
  unfold KvStore.remove
  rw [h]

/-! ## Appending to the active segment preserves entry agreement -/

theorem entryOk_append_active (d : List (Nat × File)) (n : Nat) (f : File)
    (c : Command) (hd : alookup d n = some f) (k : String)
    (po : Option CommandPosition) (vo : Option String) (h : entryOk d k po vo) :
    entryOk (aset d n (f ++ [c])) k po vo := by
  cases po with
  | none =>
    cases vo with
    | none => trivial
    | some v => exact absurd h (by simp [entryOk])
  | some pos =>
    cases vo with
    | none => exact absurd h (by simp [entryOk])
    | some v =>
      show posValD _ pos = _
      have h2 : posValD d pos = some (Command.SET k v) := h
      rw [posValD] at h2 ⊢
      by_cases hfn : pos.file_number = n
      · rw [hfn] at h2 ⊢
        rw [alookup_aset_self]
        rw [hd] at h2
        simp only [Option.getD_some] at h2 ⊢
        exact recordAt_append_of_some f [c] pos.offset pos.length _ h2
      · rw [alookup_aset_ne d n _ _ hfn]
        exact h2

/-! ## Correctness of `get` -/

theorem get_fst (s : KvStore) (k : String) : (s.get k).1 = s := by
  unfold KvStore.get
  rcases alookup s.index k with _ | pos
  · rfl
  · dsimp only
    by_cases hr : pos.file_number ∈ s.readerNums
    · rw [if_pos hr]
      rcases recordAt ((alookup s.dir pos.file_number).getD []) pos.offset
          pos.length with _ | c
      · rfl
      · cases c <;> rfl
    · rw [if_neg hr]

theorem get_eq (s : KvStore) (h : StoreInv s) (k : String) :
    s.get k = (s, .ok (storeModel s k)) := by
  unfold KvStore.get
  rcases hik : alookup s.index k with _ | pos
  · have hm := h.idxMatches k
    rw [hik] at hm
    rw [storeModel, entryOk_none_elim _ _ _ hm]
  · have hm := h.idxMatches k
    rw [hik] at hm
    obtain ⟨v, hv, hpv⟩ := entryOk_some_elim _ _ _ _ hm
    have hfn : pos.file_number ∈ keysOf s.dir := posValD_file_mem _ _ _ hpv
    dsimp only
    rw [if_pos ((h.readersIff _).mpr hfn)]
    rw [posValD] at hpv
    rw [hpv]
    rw [storeModel, hv]

/-! ## Correctness of `set` -/

theorem setState_inv (s : KvStore) (h : StoreInv s) (k v : String) :
    StoreInv (s.setState k v) ∧ storeModel (s.setState k v) k = some v ∧
      (∀ k2, k2 ≠ k → storeModel (s.setState k v) k2 = storeModel s k2) := by
  obtain ⟨f, hf⟩ := alookup_eq_some_of_mem s.dir s.current_file_number h.cfnMem
  have hgd : (alookup s.dir s.current_file_number).getD [] = f := by
    rw [hf]
    rfl
  have hdirEq : (s.setState k v).dir
      = aset s.dir s.current_file_number (f ++ [Command.SET k v]) := by
    rw [setState_dir, hgd]
  have hkeysd : keysOf (s.setState k v).dir = keysOf s.dir := by
    rw [hdirEq]
    exact keysOf_aset_of_mem _ _ _ h.cfnMem
  have hreplay : replayDir (aset s.dir s.current_file_number (f ++ [Command.SET k v]))
      = aset (replayDir s.dir) k v :=
    replayDir_aset_max s.dir s.current_file_number f (Command.SET k v)
      h.dirNodup hf h.cfnMax
  refine ⟨⟨?_, ?_, ?_, ?_, ?_, ?_, ?_, ?_⟩, ?_, ?_⟩
  · rw [NodupKeys, hkeysd]
    exact h.dirNodup
  · rw [NodupKeys, setState_index]
    exact nodupKeys_aset _ _ _ h.idxNodup
  · rw [setState_cfn]
    rw [show keysOf (s.setState k v).dir = keysOf s.dir from hkeysd]
    exact h.cfnMem
  · intro n hn
    rw [hkeysd] at hn
    rw [setState_cfn]
    exact h.cfnMax n hn
  · intro n
    rw [setState_readers, hkeysd]
    exact h.readersIff n
  · rw [setState_readers]
    exact h.readersNodup
  · rw [setState_writerPos, hdirEq, setState_cfn, alookup_aset_self]
    simp only [Option.getD_some]
    rw [h.wpos, hgd, fileSize_append]
    simp [fileSize]
  · intro k2
    rw [setState_index, hdirEq, hreplay]
    by_cases hk2 : k2 = k
    · subst hk2
      rw [alookup_aset_self, alookup_aset_self]
      show posValD _ _ = _
      rw [posValD]
      dsimp only
      rw [alookup_aset_self]
      simp only [Option.getD_some]
      rw [h.wpos, hgd]
      exact recordAt_boundary f (Command.SET k2 v) []
    · rw [alookup_aset_ne _ _ _ _ hk2, alookup_aset_ne _ _ _ _ hk2]
      exact entryOk_append_active s.dir s.current_file_number f (Command.SET k v)
        hf k2 _ _ (h.idxMatches k2)
  · rw [storeModel, hdirEq, hreplay, alookup_aset_self]
  · intro k2 hk2
    rw [storeModel, hdirEq, hreplay, alookup_aset_ne _ _ _ _ hk2]
    rfl

theorem set_ok (s : KvStore) (h : StoreInv s) (k v : String) :
    ∃ s1, s.set k v = (s1, .ok ()) ∧ StoreInv s1 ∧
      storeModel s1 k = some v ∧
      (∀ k2, k2 ≠ k → storeModel s1 k2 = storeModel s k2) := by
  obtain ⟨hinv2, hm2k, hm2ne⟩ := setState_inv s h k v
  by_cases hth : MAX_USELESS_SIZE < (s.setState k v).useless_size
  · obtain ⟨s3, hc, hinv3, hm3, _, _, _, _⟩ := compact_ok (s.setState k v) hinv2
    refine ⟨s3, ?_, hinv3, ?_, ?_⟩
    · unfold KvStore.set
      dsimp only
      rw [if_pos hth, hc]
    · rw [hm3 k]
      exact hm2k
    · intro k2 hk2
      rw [hm3 k2]
      exact hm2ne k2 hk2
  · refine ⟨s.setState k v, ?_, hinv2, hm2k, hm2ne⟩
    unfold KvStore.set
    dsimp only
    rw [if_neg hth]

/-! ## Correctness of `remove` -/

theorem removeState_inv (s : KvStore) (h : StoreInv s) (k : String)
    (cp : CommandPosition) :
    StoreInv (s.removeState k cp) ∧ storeModel (s.removeState k cp) k = none ∧
      (∀ k2, k2 ≠ k → storeModel (s.removeState k cp) k2 = storeModel s k2) := by
  obtain ⟨f, hf⟩ := alookup_eq_some_of_mem s.dir s.current_file_number h.cfnMem
  have hgd : (alookup s.dir s.current_file_number).getD [] = f := by
    rw [hf]
    rfl
  have hdirEq : (s.removeState k cp).dir
      = aset s.dir s.current_file_number (f ++ [Command.RM k]) := by
    rw [removeState_dir, hgd]
  have hkeysd : keysOf (s.removeState k cp).dir = keysOf s.dir := by
    rw [hdirEq]
    exact keysOf_aset_of_mem _ _ _ h.cfnMem
  have hreplay : replayDir (aset s.dir s.current_file_number (f ++ [Command.RM k]))
      = aerase (replayDir s.dir) k :=
    replayDir_aset_max s.dir s.current_file_number f (Command.RM k)
      h.dirNodup hf h.cfnMax
  refine ⟨⟨?_, ?_, ?_, ?_, ?_, ?_, ?_, ?_⟩, ?_, ?_⟩
  · rw [NodupKeys, hkeysd]
    exact h.dirNodup
  · rw [NodupKeys, removeState_index]
    exact nodupKeys_aerase _ _ h.idxNodup
  · rw [removeState_cfn]
    rw [show keysOf (s.removeState k cp).dir = keysOf s.dir from hkeysd]
    exact h.cfnMem
  · intro n hn
    rw [hkeysd] at hn
    rw [removeState_cfn]
    exact h.cfnMax n hn
  · intro n
    rw [removeState_readers, hkeysd]
    exact h.readersIff n
  · rw [removeState_readers]
    exact h.readersNodup
  · rw [removeState_writerPos, hdirEq, removeState_cfn, alookup_aset_self]
    simp only [Option.getD_some]
    rw [h.wpos, hgd, fileSize_append]
    simp [fileSize]
  · intro k2
    rw [removeState_index, hdirEq, hreplay]
    by_cases hk2 : k2 = k
    · subst hk2
      rw [alookup_aerase_self s.index k2 h.idxNodup,
        alookup_aerase_self (replayDir s.dir) k2 (nodupKeys_replayDir s.dir)]
      trivial
    · rw [alookup_aerase_ne _ _ _ hk2, alookup_aerase_ne _ _ _ hk2]
      exact entryOk_append_active s.dir s.current_file_number f (Command.RM k)
        hf k2 _ _ (h.idxMatches k2)
  · rw [storeModel, hdirEq, hreplay,
      alookup_aerase_self (replayDir s.dir) k (nodupKeys_replayDir s.dir)]
  · intro k2 hk2
    rw [storeModel, hdirEq, hreplay, alookup_aerase_ne _ _ _ hk2]
    rfl

theorem remove_ok (s : KvStore) (h : StoreInv s) (k : String)
    (cp : CommandPosition) (hik : alookup s.index k = some cp) :
    ∃ s1, s.remove k = (s1, .ok ()) ∧ StoreInv s1 ∧
      storeModel s1 k = none ∧
      (∀ k2, k2 ≠ k → storeModel s1 k2 = storeModel s k2) := by
  obtain ⟨hinv2, hm2k, hm2ne⟩ := removeState_inv s h k cp
  by_cases hth : MAX_USELESS_SIZE < (s.removeState k cp).useless_size
  · obtain ⟨s3, hc, hinv3, hm3, _, _, _, _⟩ := compact_ok (s.removeState k cp) hinv2
    refine ⟨s3, ?_, hinv3, ?_, ?_⟩
    · rw [remove_eq_some s k cp hik, if_pos hth, hc]
    · rw [hm3 k]
      exact hm2k
    · intro k2 hk2
      rw [hm3 k2]
      exact hm2ne k2 hk2
  · refine ⟨s.removeState k cp, ?_, hinv2, hm2k, hm2ne⟩
    rw [remove_eq_some s k cp hik, if_neg hth]

/-! ## Correctness of `open` -/

theorem openState_index (d : List (Nat × File)) :
    (openState d).index = (recoverVersions d (sortedVersions d) [] 0).1 := rfl

theorem openState_useless (d : List (Nat × File)) :
    (openState d).useless_size = (recoverVersions d (sortedVersions d) [] 0).2 := rfl

theorem openState_cfn (d : List (Nat × File)) :
    (openState d).current_file_number = (sortedVersions d).getLast?.getD 0 := rfl

theorem openState_dir (d : List (Nat × File)) :
    (openState d).dir = aset d ((sortedVersions d).getLast?.getD 0)
      ((alookup d ((sortedVersions d).getLast?.getD 0)).getD []) := rfl

theorem openState_readers (d : List (Nat × File)) :
    (openState d).readerNums =
      if (sortedVersions d).getLast?.getD 0 = 0
      then insertNum 0 (sortedVersions d) else sortedVersions d := rfl

theorem openState_writerPos (d : List (Nat × File)) :
    (openState d).writerPos
      = fileSize ((alookup d ((sortedVersions d).getLast?.getD 0)).getD []) := rfl

/-- The freshly opened store on an empty directory. -/
theorem openState_nil : openState [] = ⟨[], [0], 0, 0, [(0, [])], 0⟩ := rfl

theorem storeInv_init : StoreInv ⟨[], [0], 0, 0, [(0, [])], 0⟩ := by
  refine ⟨?_, ?_, ?_, ?_, ?_, ?_, ?_, ?_⟩
  · simp [NodupKeys, keysOf]
  · simp [NodupKeys, keysOf]
  · simp [keysOf]
  · intro n hn
    simp only [keysOf, List.map_cons, List.map_nil, List.mem_singleton] at hn
    omega
  · intro n
    simp [keysOf]
  · simp
  · rfl
  · intro k
    exact trivial

theorem openState_inv (d : List (Nat × File)) (hd : NodupKeys d) :
    StoreInv (openState d) ∧
      (∀ k, storeModel (openState d) k = alookup (replayDir d) k) := by
  rcases hvs : sortedVersions d with _ | ⟨v0, vrest⟩
  · have hknil : keysOf d = [] := by
      have hperm := List.perm_insertionSort (· ≤ ·) (keysOf d)
      rw [show List.insertionSort (· ≤ ·) (keysOf d) = sortedVersions d from rfl,
        hvs] at hperm
      exact (List.Perm.symm hperm).eq_nil
    have hdnil : d = [] := by
      rcases d with _ | ⟨⟨a, b⟩, l⟩
      · rfl
      · simp [keysOf] at hknil
    subst hdnil
    rw [openState_nil]
    refine ⟨storeInv_init, ?_⟩
    intro k
    exact rfl
  · have hvne : sortedVersions d ≠ [] := by
      rw [hvs]
      simp
    have hmem : (sortedVersions d).getLast?.getD 0 ∈ sortedVersions d :=
      sorted_getLast_mem _ hvne
    have hnk : (sortedVersions d).getLast?.getD 0 ∈ keysOf d :=
      (mem_sortedVersions d _).mp hmem
    have hmax : ∀ m ∈ keysOf d, m ≤ (sortedVersions d).getLast?.getD 0 :=
      fun m hm => sorted_le_getLast _ (sortedVersions_sorted d) m
        ((mem_sortedVersions d m).mpr hm)
    obtain ⟨f, hf⟩ := alookup_eq_some_of_mem d _ hnk
    have hdirEq : (openState d).dir = d := by
      rw [openState_dir, hf]
      simp only [Option.getD_some]
      exact aset_self_of_alookup d _ f hf
    have hreaders : (openState d).readerNums = sortedVersions d := by
      rw [openState_readers]
      by_cases h0 : (sortedVersions d).getLast?.getD 0 = 0
      · rw [if_pos h0, insertNum, if_pos (h0 ▸ hmem)]
      · rw [if_neg h0]
    obtain ⟨hidxN, hmat⟩ := recoverVersions_spec d (sortedVersions d) [] 0 []
      (by simp [NodupKeys, keysOf]) (by simp [NodupKeys, keysOf])
      (fun k => trivial)
    refine ⟨⟨?_, ?_, ?_, ?_, ?_, ?_, ?_, ?_⟩, ?_⟩
    · rw [NodupKeys, hdirEq]
      exact hd
    · rw [NodupKeys, openState_index]
      exact hidxN
    · rw [openState_cfn, hdirEq]
      exact hnk
    · intro n hn
      rw [hdirEq] at hn
      rw [openState_cfn]
      exact hmax n hn
    · intro x
      rw [hreaders, hdirEq]
      exact mem_sortedVersions d x
    · rw [hreaders]
      exact sortedVersions_nodup d hd
    · rw [openState_writerPos, hdirEq, openState_cfn]
    · intro k
      rw [openState_index, hdirEq]
      exact hmat k
    · intro k
      rw [storeModel, hdirEq]

theorem open_ok (d : List (Nat × File)) (hd : NodupKeys d) :
    ∃ s, openStore d = .ok s ∧ StoreInv s ∧
      (∀ k, storeModel s k = alookup (replayDir d) k) := by
  obtain ⟨hinv, hmod⟩ := openState_inv d hd
  by_cases hth : MAX_USELESS_SIZE < (openState d).useless_size
  · obtain ⟨s2, hc, hinv2, hm2, _⟩ := compact_ok (openState d) hinv
    refine ⟨s2, ?_, hinv2, fun k => by rw [hm2 k, hmod k]⟩
    unfold openStore
    dsimp only
    rw [if_pos hth, hc]
  · refine ⟨openState d, ?_, hinv, hmod⟩
    unfold openStore
    dsimp only
    rw [if_neg hth]

/-! ## Invariant preservation along operation sequences -/

theorem stepOp_set_eq (s : KvStore) (k v : String) :
    stepOp s (Op.set k v) =
      (match s.set k v with
      | (s1, .ok _) => some s1
      | (_, .error _) => none) := rfl

theorem stepOp_remove_eq (s : KvStore) (k : String) :
    stepOp s (Op.remove k) =
      (match s.remove k with
      | (s1, .ok _) => some s1
      | (s1, .error .KeyNotFound) => some s1
      | (_, .error _) => none) := rfl

theorem stepOp_get_eq (s : KvStore) (k : String) :
    stepOp s (Op.get k) = some (s.get k).1 := rfl

theorem stepOp_inv (s : KvStore) (h : StoreInv s) (op : Op) :
    ∃ s1, stepOp s op = some s1 ∧ StoreInv s1 := by
  cases op with
  | set k v =>
    obtain ⟨s1, hs, hinv, _, _⟩ := set_ok s h k v
    refine ⟨s1, ?_, hinv⟩
    rw [stepOp_set_eq, hs]
  | remove k =>
    rcases hik : alookup s.index k with _ | cp
    · refine ⟨s, ?_, h⟩
      rw [stepOp_remove_eq, remove_eq_none s k hik]
    · obtain ⟨s1, hs, hinv, _, _⟩ := remove_ok s h k cp hik
      refine ⟨s1, ?_, hinv⟩
      rw [stepOp_remove_eq, hs]
  | get k =>
    refine ⟨s, ?_, h⟩
    rw [stepOp_get_eq, get_fst]

theorem runOps_inv :
    ∀ (ops : List Op) (s : KvStore), StoreInv s →
      ∀ s1, runOps s ops = some s1 → StoreInv s1
  | [], s, h, s1, hr => by
    simp only [runOps, Option.some.injEq] at hr
    exact hr ▸ h
  | op :: ops, s, h, s1, hr => by
    obtain ⟨s2, hstep, hinv2⟩ := stepOp_inv s h op
    rw [runOps, hstep] at hr
    exact runOps_inv ops s2 hinv2 s1 hr

/-! ## The segment filename filter of `recover`

`recover` lists the directory and keeps `path.is_file() &&
path.extension() == Some("txt")`, then parses
`file_name.trim_start_matches("data_").trim_end_matches(".txt")` as a
`u64`.  This section models that pipeline for a file name (the final
path component); the version numbers fed into the abstract directory of
`openStore` are exactly the successful parses. -/

/-- The suffix after the last `.` of the list, if any (`Path::extension`
ignores a leading dot, which `pathExtension` handles by dropping the
first character before searching). -/
def extAfterLastDot : List Char → Option (List Char)
  | [] => none
  | c :: rest =>
    match extAfterLastDot rest with
    | some e => some e
    | none => if c = '.' then some rest else none

/-- `Path::extension` on a file name: the portion after the last dot at
position ≥ 1; `None` for names without such a dot (so `.gitignore` has
no extension but `.a.txt` has extension `txt`). -/
def pathExtension : List Char → Option (List Char)
  | [] => none
  | _ :: rest => extAfterLastDot rest

/-- Strip `p` from the front of `s`, if it is a prefix. -/
def stripPre : List Char → List Char → Option (List Char)
  | [], s => some s
  | _ :: _, [] => none
  | c :: p, d :: s => if c = d then stripPre p s else none

/-- `str::trim_start_matches(p)`: repeatedly strip the prefix `p`.
Implemented with a length fuel so it computes by reduction; one
successful strip of a nonempty `p` strictly shrinks the string, so
`s.length` steps suffice. -/
def trimLeadAux (p : List Char) : Nat → List Char → List Char
  | 0, s => s
  | fuel + 1, s =>
    match stripPre p s with
    | some s2 => if s2.length < s.length then trimLeadAux p fuel s2 else s2
    | none => s

def trimLead (p s : List Char) : List Char := trimLeadAux p s.length s

/-- `str::trim_end_matches(p)`: repeatedly strip the suffix `p`. -/
def trimTrail (p s : List Char) : List Char :=
  (trimLead p.reverse s.reverse).reverse

/-- Value of a string of decimal digits. -/
def natOfDigits (s : List Char) : Nat :=
  s.foldl (fun a c => a * 10 + (c.toNat - 48)) 0

/-- Core of `<u64 as FromStr>::from_str` once the optional sign is
removed: one or more ASCII digits whose value fits in a `u64`. -/
def parseU64Body (body : List Char) : Option Nat :=
  if body ≠ [] ∧ body.all Char.isDigit = true ∧ natOfDigits body < 2 ^ 64 then
    some (natOfDigits body)
  else none

/-- `str::parse::<u64>()`: an optional leading `+`, then one or more
digits, value below `2 ^ 64`. -/
def parseU64 (s : List Char) : Option Nat :=
  match s with
  | [] => none
  | c :: rest => parseU64Body (if c = '+' then rest else c :: rest)

/-- The segment number `recover` assigns to a directory entry named
`name`, if any: extension must be `txt`, and the name with leading
`data_` runs and trailing `.txt` runs removed must parse as a `u64`.
For each parsed number `n`, recovery then reads `data_{n}.txt`. -/
def segmentNumberOf (name : String) : Option Nat :=
  if pathExtension name.data = some "txt".data then
    parseU64 (trimTrail ".txt".data (trimLead "data_".data name.data))
  else none

/-! ### Lemmas about the filename filter -/

theorem extAfterLastDot_no_dot (ys : List Char) (h : ∀ c ∈ ys, ¬ c = '.') :
    extAfterLastDot ys = none := by
  induction ys with
  | nil => rfl
  | cons c rest ih =>
    rw [extAfterLastDot, ih (fun x hx => h x (List.mem_cons_of_mem c hx))]
    rw [if_neg (h c (List.mem_cons_self c rest))]

theorem extAfterLastDot_last (xs ys : List Char) (h : ∀ c ∈ ys, ¬ c = '.') :
    extAfterLastDot (xs ++ '.' :: ys) = some ys := by
  induction xs with
  | nil =>
    rw [List.nil_append, extAfterLastDot, extAfterLastDot_no_dot ys h]
    rw [if_pos rfl]
  | cons c xs ih =>
    rw [List.cons_append, extAfterLastDot, ih]

theorem stripPre_self_append (p r : List Char) : stripPre p (p ++ r) = some r := by
  induction p with
  | nil => rfl
  | cons c p ih => simpa [stripPre] using ih

theorem stripPre_cons_ne (c d : Char) (p s : List Char) (h : ¬ c = d) :
    stripPre (c :: p) (d :: s) = none := by
  rw [stripPre, if_neg h]

theorem trimLeadAux_of_none (p s : List Char) (h : stripPre p s = none) :
    ∀ fuel, trimLeadAux p fuel s = s
  | 0 => rfl
  | fuel + 1 => by rw [trimLeadAux, h]

theorem trimLead_strip_once (p s : List Char) (hp : p ≠ [])
    (h : stripPre p s = none) : trimLead p (p ++ s) = s := by
  rcases p with _ | ⟨a, p⟩
  · exact absurd rfl hp
  · have hlen : ((a :: p) ++ s).length = (p ++ s).length + 1 := by
      simp
    rw [trimLead, hlen, trimLeadAux, stripPre_self_append]
    dsimp only
    rw [if_pos (by simp; omega)]
    exact trimLeadAux_of_none (a :: p) s h _

theorem ne_of_isDigit (c0 c : Char) (h0 : c0.isDigit = false)
    (h : c.isDigit = true) : ¬ (c0 = c) := by
  intro he
  rw [← he] at h
  rw [h0] at h
  cases h

theorem trimTrail_digits (s : List Char) (hne : s ≠ [])
    (hdig : ∀ c ∈ s, c.isDigit = true) :
    trimTrail ".txt".data (s ++ ".txt".data) = s := by
  rw [trimTrail, List.reverse_append]
  have hrev : stripPre (".txt".data.reverse) s.reverse = none := by
    rcases hs : s.reverse with _ | ⟨c, rest⟩
    · exact absurd (by simpa using congrArg List.reverse hs) hne
    · have hc : c.isDigit = true := by
        refine hdig c ?_
        rw [← List.mem_reverse, hs]
        exact List.mem_cons_self c rest
      exact stripPre_cons_ne 't' c _ rest (ne_of_isDigit 't' c (by decide) hc)
  rw [show (".txt".data).reverse = 't' :: 'x' :: 't' :: '.' :: [] from rfl] at hrev ⊢
  rw [trimLead_strip_once _ s.reverse (by simp) hrev, List.reverse_reverse]

theorem segmentNumberOf_canonical (s : List Char) (hne : s ≠ [])
    (hdig : ∀ c ∈ s, c.isDigit = true) (hlt : natOfDigits s < 2 ^ 64) :
    segmentNumberOf (String.mk ("data_".data ++ s ++ ".txt".data))
      = some (natOfDigits s) := by
  obtain ⟨c0, s0, rfl⟩ : ∃ c0 s0, s = c0 :: s0 := by
    rcases s with _ | ⟨c0, s0⟩
    · exact absurd rfl hne
    · exact ⟨c0, s0, rfl⟩
  have hc0 : c0.isDigit = true := hdig c0 (List.mem_cons_self c0 s0)
  have hext : pathExtension ("data_".data ++ (c0 :: s0) ++ ".txt".data)
      = some "txt".data := by
    rw [show ("data_".data ++ (c0 :: s0) ++ ".txt".data)
      = 'd' :: (('a' :: 't' :: 'a' :: '_' :: (c0 :: s0)) ++ '.' :: "txt".data)
      from by simp]
    rw [pathExtension]
    exact extAfterLastDot_last _ _ (by decide)
  have hlead : trimLead "data_".data ("data_".data ++ (c0 :: s0) ++ ".txt".data)
      = (c0 :: s0) ++ ".txt".data := by
    rw [List.append_assoc]
    refine trimLead_strip_once _ _ (by simp) ?_
    exact stripPre_cons_ne 'd' c0 _ _ (ne_of_isDigit 'd' c0 (by decide) hc0)
  have htrail : trimTrail ".txt".data ((c0 :: s0) ++ ".txt".data) = c0 :: s0 :=
    trimTrail_digits (c0 :: s0) (by simp) hdig
  have hplus : ¬ (c0 = '+') := by
    intro he
    rw [he] at hc0
    cases hc0
  rw [segmentNumberOf]
  rw [show (String.mk ("data_".data ++ (c0 :: s0) ++ ".txt".data)).data
    = "data_".data ++ (c0 :: s0) ++ ".txt".data from rfl]
  rw [if_pos hext, hlead, htrail, parseU64, if_neg hplus, parseU64Body]
  rw [if_pos ⟨by simp, by
    rw [List.all_eq_true]
    intro x hx
    exact hdig x hx, hlt⟩]

theorem segmentNumberOf_non_txt (nm : String)
    (h : ¬ pathExtension nm.data = some "txt".data) :
    segmentNumberOf nm = none := by
  rw [segmentNumberOf, if_neg h]

/-! ## Unconditional facts about `compact` and file-number monotonicity -/

/-- Whatever `compact` does, it never assigns `useless_size`, and it
bumps `current_file_number` exactly twice (one fresh segment to copy
into, one more as the new active segment). -/
theorem compact_shape (s s2 : KvStore) (h : s.compact = .ok s2) :
    s2.useless_size = s.useless_size ∧
      s2.current_file_number = s.current_file_number + 2 := by
  unfold KvStore.compact at h
  dsimp only at h
  split at h
  · cases h
  · split at h
    · cases h
    · injection h with h
      subst h
      exact ⟨rfl, rfl⟩

theorem set_fst_cfn_mono (s : KvStore) (k v : String) :
    s.current_file_number ≤ ((s.set k v).1).current_file_number := by
  unfold KvStore.set
  dsimp only
  by_cases hth : MAX_USELESS_SIZE < (s.setState k v).useless_size
  · rw [if_pos hth]
    rcases hc : (s.setState k v).compact with e | s3
    · exact Nat.le_refl _
    · have h2 := (compact_shape _ _ hc).2
      rw [setState_cfn] at h2
      show s.current_file_number ≤ s3.current_file_number
      omega
  · rw [if_neg hth]
    exact Nat.le_refl _

theorem remove_fst_cfn_mono (s : KvStore) (k : String) :
    s.current_file_number ≤ ((s.remove k).1).current_file_number := by
  rcases hik : alookup s.index k with _ | cp
  · rw [remove_eq_none s k hik]
  · rw [remove_eq_some s k cp hik]
    by_cases hth : MAX_USELESS_SIZE < (s.removeState k cp).useless_size
    · rw [if_pos hth]
      rcases hc : (s.removeState k cp).compact with e | s3
      · exact Nat.le_refl _
      · have h2 := (compact_shape _ _ hc).2
        rw [removeState_cfn] at h2
        show s.current_file_number ≤ s3.current_file_number
        omega
    · rw [if_neg hth]
      exact Nat.le_refl _

theorem stepOp_cfn_mono (s s1 : KvStore) (op : Op) (h : stepOp s op = some s1) :
    s.current_file_number ≤ s1.current_file_number := by
  cases op with
  | set k v =>
    rw [stepOp_set_eq] at h
    rcases hs : s.set k v with ⟨s2, r⟩
    rw [hs] at h
    rcases r with e | u
    · cases h
    · simp only [Option.some.injEq] at h
      subst h
      have := set_fst_cfn_mono s k v
      rw [hs] at this
      exact this
  | remove k =>
    rw [stepOp_remove_eq] at h
    rcases hs : s.remove k with ⟨s2, r⟩
    rw [hs] at h
    rcases r with e | u
    · cases e with
      | KeyNotFound =>
        simp only [Option.some.injEq] at h
        subst h
        have := remove_fst_cfn_mono s k
        rw [hs] at this
        exact this
      | Io => cases h
      | Serde => cases h
      | UnknownCommandType => cases h
      | ChangeEngineError => cases h
      | CommonStringError msg => cases h
      | Panic => cases h
    · simp only [Option.some.injEq] at h
      subst h
      have := remove_fst_cfn_mono s k
      rw [hs] at this
      exact this
  | get k =>
    rw [stepOp_get_eq, get_fst] at h
    simp only [Option.some.injEq] at h
    subst h
    exact Nat.le_refl _

theorem runOps_cfn_mono :
    ∀ (ops : List Op) (s s1 : KvStore), runOps s ops = some s1 →
      s.current_file_number ≤ s1.current_file_number
  | [], s, s1, h => by
    simp only [runOps, Option.some.injEq] at h
    subst h
    exact Nat.le_refl _
  | op :: ops, s, s1, h => by
    rcases hstep : stepOp s op with _ | s2
    · rw [runOps, hstep] at h
      cases h
    · rw [runOps, hstep] at h
      exact Nat.le_trans (stepOp_cfn_mono s s2 op hstep)
        (runOps_cfn_mono ops s2 s1 h)

/-- The pre-compaction state of `remove` on a present key, written as a
single structure update. -/
theorem removeState_eq (s : KvStore) (k : String) (cp : CommandPosition) :
    s.removeState k cp =
      { s with
        index := aerase s.index k
        dir := aset s.dir s.current_file_number
          (((alookup s.dir s.current_file_number).getD []) ++ [Command.RM k])
        writerPos := s.writerPos + encLen (Command.RM k)
        useless_size := s.useless_size + cp.length + encLen (Command.RM k) } := by
  unfold KvStore.removeState
  dsimp only
  rw [Nat.add_sub_cancel_left]

/-! # The claims -/

/-- C1: the spec states that after every successful run of compaction the
waste counter (`useless_size`) equals zero, but the source of `compact`
(src/kv.rs, lines 245-282) never assigns `useless_size`: a successful
compaction returns with the waste counter exactly as it was.  Once the
counter has crossed the threshold it therefore stays above it, and every
subsequent `set`/`remove` triggers a further compaction — a code bug
against the spec's explicit step 6 ("Reset the waste counter to zero"). -/
theorem C1_compact_leaves_waste_counter (s s2 : KvStore)
    (h : s.compact = .ok s2) : s2.useless_size = s.useless_size :=
  (compact_shape s s2 h).1

theorem C1_compact_leaves_waste_counter_witness :
    (⟨[], [0], 0, 2000, [(0, [])], 0⟩ : KvStore).compact
      = .ok ⟨[], [1, 2], 2, 2000, [(1, []), (2, [])], 0⟩ ∧
    (⟨[], [1, 2], 2, 2000, [(1, []), (2, [])], 0⟩ : KvStore).useless_size
      = (⟨[], [0], 0, 2000, [(0, [])], 0⟩ : KvStore).useless_size :=
  ⟨by decide, C1_compact_leaves_waste_counter _ _ (by decide)⟩

/-- C2: for every sequence of set/remove/get operations executed on a
store opened on a directory, followed by dropping the store and calling
`open` on the same directory, `get k` on the reopened store returns the
same result as on the original store, for every key `k`. -/
theorem C2_reopen_preserves_get (d : List (Nat × File)) (hd : NodupKeys d)
    (ops : List Op) (s0 s s2 : KvStore) (h0 : openStore d = .ok s0)
    (hr : runOps s0 ops = some s) (h2 : openStore s.dir = .ok s2) (k : String) :
    (s2.get k).2 = (s.get k).2 := by
  obtain ⟨s0x, h0x, hinv0, _⟩ := open_ok d hd
  rw [h0] at h0x
  injection h0x with h0x
  subst h0x
  have hinvs : StoreInv s := runOps_inv ops s0 hinv0 s hr
  obtain ⟨s2x, h2x, hinv2, hm2⟩ := open_ok s.dir hinvs.dirNodup
  rw [h2] at h2x
  injection h2x with h2x
  subst h2x
  rw [get_eq s hinvs k, get_eq s2 hinv2 k]
  rw [show storeModel s2 k = storeModel s k from hm2 k]

theorem C2_reopen_preserves_get_witness :
    ((⟨[("a", ⟨0, 17, 0⟩)], [0], 0, 0, [(0, [Command.SET "a" "b"])], 17⟩
        : KvStore).get "a").2
      = ((⟨[("a", ⟨0, 17, 0⟩)], [0], 0, 0, [(0, [Command.SET "a" "b"])], 17⟩
        : KvStore).get "a").2 :=
  C2_reopen_preserves_get [] (by exact List.nodup_nil) [Op.set "a" "b"]
    ⟨[], [0], 0, 0, [(0, [])], 0⟩
    ⟨[("a", ⟨0, 17, 0⟩)], [0], 0, 0, [(0, [Command.SET "a" "b"])], 17⟩
    ⟨[("a", ⟨0, 17, 0⟩)], [0], 0, 0, [(0, [Command.SET "a" "b"])], 17⟩
    (by decide) (by decide) (by decide) "a"

/-- C3: on every invariant-satisfying store (every store reachable from
`open`), `set k v` succeeds and a following `get k` returns `some v`;
and after `set k v1; set k v2`, `get k` returns `some v2` — the latest
set wins, compaction triggered inside `set` included. -/
theorem C3_set_then_get (s : KvStore) (h : StoreInv s) (k v v1 v2 : String) :
    (s.set k v).2 = .ok () ∧
    (((s.set k v).1).get k).2 = .ok (some v) ∧
    (((((s.set k v1).1).set k v2).1).get k).2 = .ok (some v2) := by
  obtain ⟨sx, hsx, hinvx, hmx, _⟩ := set_ok s h k v
  obtain ⟨sa, hsa, hinva, hma, _⟩ := set_ok s h k v1
  obtain ⟨sb, hsb, hinvb, hmb, _⟩ := set_ok sa hinva k v2
  refine ⟨by rw [hsx], ?_, ?_⟩
  · rw [hsx]
    show (sx.get k).2 = _
    rw [get_eq sx hinvx k, hmx]
  · rw [hsa]
    show (((sa.set k v2).1).get k).2 = _
    rw [hsb]
    show (sb.get k).2 = _
    rw [get_eq sb hinvb k, hmb]

theorem C3_set_then_get_witness :
    ((⟨[], [0], 0, 0, [(0, [])], 0⟩ : KvStore).set "a" "b").2 = .ok () ∧
    ((((⟨[], [0], 0, 0, [(0, [])], 0⟩ : KvStore).set "a" "b").1).get "a").2
      = .ok (some "b") ∧
    (((((⟨[], [0], 0, 0, [(0, [])], 0⟩ : KvStore).set "a" "x").1.set "a" "y").1).get
        "a").2 = .ok (some "y") :=
  C3_set_then_get ⟨[], [0], 0, 0, [(0, [])], 0⟩ storeInv_init "a" "b" "x" "y"

/-- C4: on every invariant-satisfying store, after `set k v` then
`remove k` (both succeeding), `get k` returns `none`; and a further
`set k v` makes `get k` return `some v` again. -/
theorem C4_set_remove_get (s : KvStore) (h : StoreInv s) (k v : String) :
    ((((s.set k v).1).remove k).2 = .ok ()) ∧
    (((((s.set k v).1).remove k).1).get k).2 = .ok none ∧
    ((((((s.set k v).1).remove k).1.set k v).1).get k).2 = .ok (some v) := by
  obtain ⟨s1, hs1, hinv1, hm1, _⟩ := set_ok s h k v
  obtain ⟨cp, hcp⟩ := mem_index_of_model s1 hinv1 k v hm1
  obtain ⟨s2, hs2, hinv2, hm2, _⟩ := remove_ok s1 hinv1 k cp hcp
  obtain ⟨s3, hs3, hinv3, hm3, _⟩ := set_ok s2 hinv2 k v
  refine ⟨?_, ?_, ?_⟩
  · rw [hs1]
    show (s1.remove k).2 = _
    rw [hs2]
  · rw [hs1]
    show (((s1.remove k).1).get k).2 = _
    rw [hs2]
    show (s2.get k).2 = _
    rw [get_eq s2 hinv2 k, hm2]
  · rw [hs1]
    show (((((s1.remove k).1).set k v).1).get k).2 = _
    rw [hs2]
    show ((((s2.set k v).1)).get k).2 = _
    rw [hs3]
    show (s3.get k).2 = _
    rw [get_eq s3 hinv3 k, hm3]

theorem C4_set_remove_get_witness :
    ((((⟨[], [0], 0, 0, [(0, [])], 0⟩ : KvStore).set "a" "b").1).remove "a").2
      = .ok () ∧
    ((((((⟨[], [0], 0, 0, [(0, [])], 0⟩ : KvStore).set "a" "b").1).remove
        "a").1).get "a").2 = .ok none ∧
    (((((((⟨[], [0], 0, 0, [(0, [])], 0⟩ : KvStore).set "a" "b").1).remove
        "a").1.set "a" "b").1).get "a").2 = .ok (some "b") :=
  C4_set_remove_get ⟨[], [0], 0, 0, [(0, [])], 0⟩ storeInv_init "a" "b"

/-- C5: `remove k` on a key absent from the index returns the
`KeyNotFound` error and is a no-op: the match in the source returns
before any index, waste-counter, file or writer-position mutation, which
the model expresses by `remove` yielding the original state unchanged
(so nothing is written to disk). -/
theorem C5_remove_absent (s : KvStore) (k : String)
    (h : alookup s.index k = none) :
    s.remove k = (s, .error KVStoreError.KeyNotFound) ∧
    stepOp s (Op.remove k) = some s := by
  refine ⟨remove_eq_none s k h, ?_⟩
  rw [stepOp_remove_eq, remove_eq_none s k h]

theorem C5_remove_absent_witness :
    (⟨[], [0], 0, 0, [(0, [])], 0⟩ : KvStore).remove "z"
      = (⟨[], [0], 0, 0, [(0, [])], 0⟩, .error KVStoreError.KeyNotFound) ∧
    stepOp ⟨[], [0], 0, 0, [(0, [])], 0⟩ (Op.remove "z")
      = some ⟨[], [0], 0, 0, [(0, [])], 0⟩ :=
  C5_remove_absent ⟨[], [0], 0, 0, [(0, [])], 0⟩ "z" (by decide)

/-- C6: on every invariant-satisfying store, compaction succeeds,
every pre-existing segment file has number strictly below the new
compaction segment and is unlinked together with its reader (the
surviving files and readers are exactly the compaction segment
`current_file_number + 1` and the fresh active segment
`current_file_number + 2`), the file number rises by exactly two, and
over any further operation sequence the highest segment number never
decreases. -/
theorem C6_compact_segment_numbers (s : KvStore) (h : StoreInv s) :
    (∃ s2, s.compact = .ok s2 ∧
      s2.current_file_number = s.current_file_number + 2 ∧
      (∀ n ∈ keysOf s.dir, n < s.current_file_number + 1) ∧
      keysOf s2.dir = [s.current_file_number + 1, s.current_file_number + 2] ∧
      (∀ n, n ∈ s2.readerNums ↔
        (n = s.current_file_number + 1 ∨ n = s.current_file_number + 2))) ∧
    (∀ ops s3, runOps s ops = some s3 →
      s.current_file_number ≤ s3.current_file_number) := by
  constructor
  · obtain ⟨s2, hc, _, _, _, hcfn, hkeys, hrd⟩ := compact_ok s h
    exact ⟨s2, hc, hcfn, fun n hn => by
      have := h.cfnMax n hn
      omega, hkeys, hrd⟩
  · intro ops s3 hr
    exact runOps_cfn_mono ops s s3 hr

theorem C6_compact_segment_numbers_witness :
    (⟨[], [0], 0, 0, [(0, [])], 0⟩ : KvStore).compact
      = .ok ⟨[], [1, 2], 2, 0, [(1, []), (2, [])], 0⟩ ∧
    (⟨[], [1, 2], 2, 0, [(1, []), (2, [])], 0⟩ : KvStore).current_file_number
      = (⟨[], [0], 0, 0, [(0, [])], 0⟩ : KvStore).current_file_number + 2 := by
  have hc : (⟨[], [0], 0, 0, [(0, [])], 0⟩ : KvStore).compact
      = .ok ⟨[], [1, 2], 2, 0, [(1, []), (2, [])], 0⟩ := by decide
  obtain ⟨⟨s2, hc2, hcfn, _, _, _⟩, _⟩ :=
    C6_compact_segment_numbers ⟨[], [0], 0, 0, [(0, [])], 0⟩ storeInv_init
  rw [hc] at hc2
  injection hc2 with hc2
  subst hc2
  exact ⟨hc, hcfn⟩

/-- C7: `remove k` on a key present with index entry `cp` (when the
resulting waste stays at or below the compaction threshold, so the
effect of `remove` itself is visible) removes the index entry, appends
exactly one `Remove(k)` record to the active segment, advances the
writer by that record's encoded length, and increases the waste counter
by exactly the evicted entry's stored length plus the appended `RM`
record's encoded length. -/
theorem C7_remove_present (s : KvStore) (k : String) (cp : CommandPosition)
    (hik : alookup s.index k = some cp)
    (hth : s.useless_size + cp.length + encLen (Command.RM k)
      ≤ MAX_USELESS_SIZE) :
    s.remove k =
      ({ s with
        index := aerase s.index k
        dir := aset s.dir s.current_file_number
          (((alookup s.dir s.current_file_number).getD []) ++ [Command.RM k])
        writerPos := s.writerPos + encLen (Command.RM k)
        useless_size := s.useless_size + cp.length + encLen (Command.RM k) },
      .ok ()) := by
  rw [remove_eq_some s k cp hik]
  rw [if_neg (by
    rw [removeState_useless]
    omega)]
  rw [removeState_eq]

theorem C7_remove_present_witness :
    0 + 5 + encLen (Command.RM "a") ≤ MAX_USELESS_SIZE ∧
    (⟨[("a", ⟨0, 5, 0⟩)], [0], 0, 0, [(0, [])], 0⟩ : KvStore).remove "a"
      = (⟨[], [0], 0, 15, [(0, [Command.RM "a"])], 10⟩, .ok ()) := by
  refine ⟨by decide, ?_⟩
  rw [C7_remove_present ⟨[("a", ⟨0, 5, 0⟩)], [0], 0, 0, [(0, [])], 0⟩ "a"
    ⟨0, 5, 0⟩ (by decide) (by decide)]
  decide

/-- C8, counterexample: the claim says only files named exactly
`data_{n}.txt` (no leading zeros) are treated as segments and every
other file is ignored; under that claim `segmentNumberOf "7.txt"` would
be `none`.  But the source filter keeps any `.txt` file and parses the
name after `trim_start_matches("data_")` / `trim_end_matches(".txt")`,
so the file `7.txt` is treated as naming segment 7 (recovery will then
try to read `data_7.txt`); likewise `data_07.txt`, `data_+7.txt` and
`data_data_7.txt` all denote segment 7. -/
theorem C8_segment_name_counterexample : segmentNumberOf "7.txt" = some 7 := by
  decide

/-- C8, amended: `open` treats a directory entry as naming segment `n`
exactly when its `Path::extension` is `txt` and its name, after
repeatedly stripping leading `data_` and trailing `.txt`, parses as a
Rust `u64` (optional `+`, one or more decimal digits — leading zeros
allowed — value below `2^64`); in particular every canonical name
`data_{digits}.txt` is accepted with the digits' value, and every file
whose extension is not `txt` is ignored. -/
theorem C8_segment_name_amended :
    (∀ s : List Char, s ≠ [] → (∀ c ∈ s, c.isDigit = true) →
      natOfDigits s < 2 ^ 64 →
      segmentNumberOf (String.mk ("data_".data ++ s ++ ".txt".data))
        = some (natOfDigits s)) ∧
    (∀ nm : String, ¬ pathExtension nm.data = some "txt".data →
      segmentNumberOf nm = none) :=
  ⟨segmentNumberOf_canonical, segmentNumberOf_non_txt⟩

theorem C8_segment_name_amended_witness :
    segmentNumberOf (String.mk ("data_".data ++ ['7'] ++ ".txt".data))
      = some (natOfDigits ['7']) ∧
    segmentNumberOf "foo.log" = none :=
  ⟨C8_segment_name_amended.1 ['7'] (by decide) (by decide) (by decide),
    C8_segment_name_amended.2 "foo.log" (by decide)⟩

/-- C9: in every state reachable by `open` followed by any sequence of
`set`/`get`/`remove` calls, every `CommandPosition` stored in the index
has a `file_number` that is a key of `current_readers`; consequently the
`expect("Can not find key in files but it is in memory")` branch in
`get` is never reached (`get` never panics) and neither is the one in
`compact` (compaction succeeds outright). -/
theorem C9_index_file_numbers_have_readers (d : List (Nat × File))
    (hd : NodupKeys d) (ops : List Op) (s0 s : KvStore)
    (h0 : openStore d = .ok s0) (hr : runOps s0 ops = some s) :
    (∀ k pos, alookup s.index k = some pos → pos.file_number ∈ s.readerNums) ∧
    (∀ k, (s.get k).2 ≠ .error KVStoreError.Panic) ∧
    (∀ e, s.compact ≠ .error e) := by
  obtain ⟨s0x, h0x, hinv0, _⟩ := open_ok d hd
  rw [h0] at h0x
  injection h0x with h0x
  subst h0x
  have hinv : StoreInv s := runOps_inv ops s0 hinv0 s hr
  refine ⟨?_, ?_, ?_⟩
  · intro k pos hik
    have hm := hinv.idxMatches k
    rw [hik] at hm
    obtain ⟨v, _, hpv⟩ := entryOk_some_elim _ _ _ _ hm
    exact (hinv.readersIff _).mpr (posValD_file_mem _ _ _ hpv)
  · intro k
    rw [get_eq s hinv k]
    simp
  · intro e
    obtain ⟨s2, hc, _⟩ := compact_ok s hinv
    rw [hc]
    simp

theorem C9_index_file_numbers_have_readers_witness :
    (⟨0, 17, 0⟩ : CommandPosition).file_number
      ∈ (⟨[("a", ⟨0, 17, 0⟩)], [0], 0, 0, [(0, [Command.SET "a" "b"])], 17⟩
        : KvStore).readerNums ∧
    ((⟨[("a", ⟨0, 17, 0⟩)], [0], 0, 0, [(0, [Command.SET "a" "b"])], 17⟩
        : KvStore).get "q").2 ≠ .error KVStoreError.Panic := by
  have H := C9_index_file_numbers_have_readers [] (by exact List.nodup_nil)
    [Op.set "a" "b"]
    ⟨[], [0], 0, 0, [(0, [])], 0⟩
    ⟨[("a", ⟨0, 17, 0⟩)], [0], 0, 0, [(0, [Command.SET "a" "b"])], 17⟩
    (by decide) (by decide)
  exact ⟨H.1 "a" ⟨0, 17, 0⟩ (by decide), H.2.1 "q"⟩

/-- C10: a call to `get k` — whatever it returns — leaves the whole
engine state unchanged: the source takes `&mut self` only to seek the
cached reader and assigns no field, so the index, waste counter, current
file number, writer position, reader set and every segment file on disk
are untouched (in particular no bytes are appended to any segment). -/
theorem C10_get_leaves_state_unchanged (s : KvStore) (k : String) :
    (s.get k).1 = s ∧
    (s.get k).1.index = s.index ∧
    (s.get k).1.useless_size = s.useless_size ∧
    (s.get k).1.current_file_number = s.current_file_number ∧
    (s.get k).1.writerPos = s.writerPos ∧
    (s.get k).1.dir = s.dir := by
  refine ⟨get_fst s k, ?_, ?_, ?_, ?_, ?_⟩ <;> rw [get_fst s k]
